import Mathlib

/-!
Verification of the chained hash map in
`src/256a/project/milesAhead/src/containers/juce_HashMap.h`.

The C++ `HashMap<KeyType, ValueType, HashFunctionToUse, TypeOfCriticalSectionToUse>`
stores an array `slots` of singly linked chains of `HashEntry (key, value, nextEntry)`
together with an `int totalNumItems` counter.  We embed it shallowly: a chain becomes a
`List (K × V)` (head of the list = head of the chain), the slot array becomes a
`List (List (K × V))`, and `totalNumItems` an `Int`.  The critical-section parameter is
instantiated with `DummyCriticalSection` in the relevant claims, whose lock operations
are no-ops, so locking has no observable effect and is not modelled.

The hash function template parameter becomes an explicit function `hf : K → Nat → Nat`
(the C++ contract, asserted by `generateHashFor`, is that the returned `int` lies in
`[0, numSlots)`, so an in-contract hash is a natural number below the slot count).
The `int`-specific `DefaultHashFunctions::generateHash` is modelled separately, with
exact 32-bit two's-complement semantics, at the end of the file.

`HashMap::set` and `HashMap::remapTable` are mutually recursive in the source
(`set` triggers `remapTable (getNumSlots() * 2)` when
`totalNumItems > getNumSlots() * 3 / 2`, and `remapTable` re-inserts every entry of the
old table by calling `set` on a fresh table).  The recursion terminates in C++ because a
nested rebuild is always strictly less loaded; in Lean we make this explicit with a
structural fuel parameter.  Running out of fuel skips the pending rebuild (and nothing
else), and the public wrappers supply enough fuel that the skip never happens on states
reachable through the public interface; all general theorems below are proved for every
fuel value.
-/

namespace Juce

/-- State of a C++ `HashMap`: the slot array (`Array<HashEntry*> slots`, one entry
chain per slot, chain head first) and the `int totalNumItems` counter. -/
structure HashMap (K V : Type) where
  slots : List (List (K × V))
  totalNumItems : Int
  deriving DecidableEq, Repr

namespace HashMap

variable {K V : Type} [DecidableEq K] [DecidableEq V]

/-- The constructor `HashMap (numberOfSlots)`: inserts `numberOfSlots` null chain
heads (a non-positive request inserts none) and starts with `totalNumItems = 0`. -/
def emptyMap (numberOfSlots : Int) : HashMap K V :=
  ⟨List.replicate numberOfSlots.toNat [], 0⟩

/-- C++ `getNumSlots()`: the size of the slot array. -/
def getNumSlots (m : HashMap K V) : Nat :=
  m.slots.length

/-- C++ `size()`: returns `totalNumItems`. -/
def size (m : HashMap K V) : Int :=
  m.totalNumItems

/-- C++ `generateHashFor (key)`: applies the hash function to the key with the current
slot count as the upper limit (the source then asserts the result is in range). -/
def generateHashFor (hf : K → Nat → Nat) (m : HashMap K V) (key : K) : Nat :=
  hf key m.slots.length

/-- C++ `operator[] (keyToLookFor)`: walks the chain in the key's slot and returns the
first entry with a matching key; a miss returns a default-constructed `ValueType()`. -/
def lookup [Inhabited V] (hf : K → Nat → Nat) (m : HashMap K V) (keyToLookFor : K) : V :=
  match (m.slots.getD (generateHashFor hf m keyToLookFor) []).find?
      (fun e => decide (e.1 = keyToLookFor)) with
  | some e => e.2
  | none => default

/-- The lookup walk as an `Option`: `some` the value of the first matching entry in the
key's chain, `none` on a miss.  `operator[]` is this followed by `getD default`. -/
def val? (hf : K → Nat → Nat) (m : HashMap K V) (keyToLookFor : K) : Option V :=
  ((m.slots.getD (generateHashFor hf m keyToLookFor) []).find?
      (fun e => decide (e.1 = keyToLookFor))).map Prod.snd

/-- C++ `contains (keyToLookFor)`: scans the key's chain for a matching key. -/
def contains (hf : K → Nat → Nat) (m : HashMap K V) (keyToLookFor : K) : Bool :=
  (m.slots.getD (generateHashFor hf m keyToLookFor) []).any
    (fun e => decide (e.1 = keyToLookFor))

/-- C++ `containsValue (valueToLookFor)`: scans every chain for a matching value. -/
def containsValue (m : HashMap K V) (valueToLookFor : V) : Bool :=
  m.slots.any (fun chain => chain.any (fun e => decide (e.2 = valueToLookFor)))

/-- C++ `clear()`: frees every chain, nulls every slot (slot count kept) and resets
`totalNumItems` to 0. -/
def clear (m : HashMap K V) : HashMap K V :=
  ⟨m.slots.map (fun _ => []), 0⟩

/-- The in-place value overwrite performed by the first loop of `HashMap::set`:
the first entry of the chain whose key matches gets `entry->value = newValue`. -/
def replaceFirstValue : List (K × V) → K → V → List (K × V)
  | [], _, _ => []
  | e :: rest, k, v => if e.1 = k then (e.1, v) :: rest else e :: replaceFirstValue rest k v

/-- The entry list of the whole table: every chain concatenated. -/
def entries (m : HashMap K V) : List (K × V) :=
  m.slots.flatten

/-- Folds a (key, value) list into a table with a given insertion function; this is
the loop body of `HashMap::remapTable`, which re-inserts every entry of the old
table into `newTable` via `newTable.set`. -/
def insertList (g : HashMap K V → K → V → HashMap K V) (t : HashMap K V) :
    List (K × V) → HashMap K V
  | [] => t
  | e :: rest => insertList g (g t e.1 e.2) rest

/-- One call of `HashMap::set (newKey, newValue)` with the growth step abstracted:
if the key's chain already holds the key, overwrite its value in place and return;
otherwise prepend a fresh entry (`new HashEntry (newKey, newValue, firstEntry)`
becomes the new slot head), bump `totalNumItems`, and if the count now exceeds
`getNumSlots() * 3 / 2` perform the growth action `onGrow` (the source calls
`remapTable (getNumSlots() * 2)` there). -/
def setStep (hf : K → Nat → Nat) (onGrow : HashMap K V → HashMap K V)
    (m : HashMap K V) (newKey : K) (newValue : V) : HashMap K V :=
  let hashIndex := hf newKey m.slots.length
  let firstEntry := m.slots.getD hashIndex []
  if firstEntry.any (fun e => decide (e.1 = newKey)) then
    ⟨m.slots.set hashIndex (replaceFirstValue firstEntry newKey newValue), m.totalNumItems⟩
  else
    let grown : HashMap K V :=
      ⟨m.slots.set hashIndex ((newKey, newValue) :: firstEntry), m.totalNumItems + 1⟩
    if (((grown.slots.length * 3) / 2 : Nat) : Int) < grown.totalNumItems then
      onGrow grown
    else grown

/-- `HashMap::set` with fuel for the mutual recursion with `remapTable`: at the growth
point the source calls `remapTable (getNumSlots() * 2)`, whose body (re-insert every
entry, oldest slot first within the reversed slot walk, into a fresh table of the
requested size) is inlined here; out of fuel the rebuild is skipped. -/
def setF (hf : K → Nat → Nat) : Nat → HashMap K V → K → V → HashMap K V
  | 0 => setStep hf (fun grown => grown)
  | Nat.succ f => setStep hf (fun grown =>
      insertList (setF hf f) (emptyMap ((grown.slots.length : Int) * 2))
        grown.slots.reverse.flatten)

/-- `HashMap::remapTable (newNumberOfSlots)` with fuel: build a fresh table of the
requested size, re-insert every entry of the old table by walking the slots from the
last index down to 0 (each chain head first) and calling `set` on the new table, then
`swapWith` publishes the new table as the result. -/
def remapF (hf : K → Nat → Nat) : Nat → Int → HashMap K V → HashMap K V
  | 0, _, m => m
  | Nat.succ f, newNumberOfSlots, m =>
      insertList (setF hf f) (emptyMap newNumberOfSlots) m.slots.reverse.flatten

/-- Fuel supplied by the public wrappers.  The source recursion only ever nests a
rebuild inside a rebuild once more (a freshly doubled table is at most two-thirds
loaded), so any fuel of at least 2 is enough on reachable states. -/
def fuelFor (m : HashMap K V) : Nat :=
  m.totalNumItems.toNat + m.slots.length + 2

/-- Public `HashMap::set (newKey, newValue)`. -/
def set (hf : K → Nat → Nat) (m : HashMap K V) (newKey : K) (newValue : V) : HashMap K V :=
  setF hf (fuelFor m) m newKey newValue

/-- Public `HashMap::remapTable (newNumberOfSlots)`. -/
def remapTable (hf : K → Nat → Nat) (m : HashMap K V) (newNumberOfSlots : Int) : HashMap K V :=
  remapF hf (fuelFor m) newNumberOfSlots m

/-- C++ `remove (keyToRemove)`: walks the key's chain, unlinks and frees every entry
whose key matches (decrementing `totalNumItems` per unlinked entry), keeping the other
entries in order. -/
def remove (hf : K → Nat → Nat) (m : HashMap K V) (keyToRemove : K) : HashMap K V :=
  let hashIndex := hf keyToRemove m.slots.length
  let chain := m.slots.getD hashIndex []
  ⟨m.slots.set hashIndex (chain.filter (fun e => !decide (e.1 = keyToRemove))),
    m.totalNumItems - (chain.countP (fun e => decide (e.1 = keyToRemove)) : Int)⟩

/-- C++ `removeValue (valueToRemove)`: walks every chain, unlinks and frees every entry
whose value matches (decrementing `totalNumItems` per unlinked entry). -/
def removeValue (m : HashMap K V) (valueToRemove : V) : HashMap K V :=
  ⟨m.slots.map (fun chain => chain.filter (fun e => !decide (e.2 = valueToRemove))),
    m.totalNumItems - ((entries m).countP (fun e => decide (e.2 = valueToRemove)) : Int)⟩

/-- C++ `swapWith (otherHashMap)`: swaps the slot arrays and the item counters of the
two maps; the returned pair is (this, other) after the swap. -/
def swapWith (a b : HashMap K V) : HashMap K V × HashMap K V :=
  (⟨b.slots, b.totalNumItems⟩, ⟨a.slots, a.totalNumItems⟩)

/-- At-most-one entry per key, over the whole table: the chain walk invariant. -/
def keyUnique (l : List (K × V)) : Prop :=
  (l.map Prod.fst).Nodup

/-- The value recorded for a key by the last `set`-style pair in a call sequence:
filter the sequence to the key and take the final pair's value. -/
def lastAssigned (ops : List (K × V)) (k : K) : Option V :=
  ((ops.filter (fun e => decide (e.1 = k))).getLast?).map Prod.snd

/-- First-some choice on options, used to state how later writes shadow earlier state. -/
def orO {α : Type} : Option α → Option α → Option α
  | some v, _ => some v
  | none, o => o

/-- The structural invariant of a `HashMap` state: a positive slot count, every entry
in the slot its key hashes to, no duplicate keys, and `totalNumItems` equal to the
number of entries. -/
def Inv (hf : K → Nat → Nat) (m : HashMap K V) : Prop :=
  0 < m.slots.length ∧
  (∀ i, ∀ e ∈ m.slots.getD i [], hf e.1 m.slots.length = i) ∧
  keyUnique (entries m) ∧
  m.totalNumItems = ((entries m).length : Int)

/-- Number of keys of the pair list that are fresh with respect to a lookup state `g`,
counting a repeated key once: the net growth of `totalNumItems` when the list is
folded into a table whose lookup state is `g`. -/
def newKeysF (g : K → Option V) : List (K × V) → Nat
  | [] => 0
  | e :: rest => (if g e.1 = none then 1 else 0)
      + newKeysF (fun k => if k = e.1 then some e.2 else g k) rest

/-- A growth action that preserves the invariant, every lookup and the item count,
and multiplies the slot count by a power of two. -/
def GrowSpec (hf : K → Nat → Nat) (gr : HashMap K V → HashMap K V) : Prop :=
  ∀ m : HashMap K V, Inv hf m →
    Inv hf (gr m) ∧ (∀ k, val? hf (gr m) k = val? hf m k) ∧
    (gr m).totalNumItems = m.totalNumItems ∧
    (∃ j, (gr m).slots.length = 2 ^ j * m.slots.length)

/-- Functional specification of one `set` call on an invariant-satisfying map:
the invariant is kept, the key now looks up to the new value and no other key
changes, the count grows by one exactly on a fresh key, and the slot count is
multiplied by a power of two (1 when no growth fires). -/
def SetSpec (hf : K → Nat → Nat) (g : HashMap K V → K → V → HashMap K V) : Prop :=
  ∀ (m : HashMap K V) (k : K) (v : V), Inv hf m →
    Inv hf (g m k v) ∧
    (∀ k', val? hf (g m k v) k' = if k' = k then some v else val? hf m k') ∧
    (g m k v).totalNumItems = m.totalNumItems + (if val? hf m k = none then 1 else 0) ∧
    (∃ j, (g m k v).slots.length = 2 ^ j * m.slots.length)

/-- A sequence of public `set` calls, first element applied first. -/
def runSets (hf : K → Nat → Nat) (m : HashMap K V) (ops : List (K × V)) : HashMap K V :=
  insertList (set hf) m ops

/-- States reachable from the constructor through the public mutating interface:
`set`, `remove`, `removeValue`, `clear`, `remapTable` (with a positive slot request)
and `swapWith`. -/
inductive Reachable (hf : K → Nat → Nat) : HashMap K V → Prop where
  | emptyMap : ∀ n : Int, 0 < n → Reachable hf (emptyMap n)
  | set : ∀ {m : HashMap K V} (k : K) (v : V), Reachable hf m →
      Reachable hf (HashMap.set hf m k v)
  | remove : ∀ {m : HashMap K V} (k : K), Reachable hf m →
      Reachable hf (HashMap.remove hf m k)
  | removeValue : ∀ {m : HashMap K V} (v : V), Reachable hf m →
      Reachable hf (HashMap.removeValue m v)
  | clear : ∀ {m : HashMap K V}, Reachable hf m → Reachable hf (HashMap.clear m)
  | remapTable : ∀ {m : HashMap K V} (n : Int), 0 < n → Reachable hf m →
      Reachable hf (HashMap.remapTable hf m n)
  | swapLeft : ∀ {a b : HashMap K V}, Reachable hf a → Reachable hf b →
      Reachable hf (HashMap.swapWith a b).1
  | swapRight : ∀ {a b : HashMap K V}, Reachable hf a → Reachable hf b →
      Reachable hf (HashMap.swapWith a b).2

end HashMap

/-- 32-bit two's-complement wrap-around of an integer value. -/
def toInt32 (x : Int) : Int :=
  (x + 2 ^ 31) % 2 ^ 32 - 2 ^ 31

namespace DefaultHashFunctions

/-- `std::abs` on a 32-bit `int` with two's-complement wrap-around: negating
`INT_MIN` overflows back to `INT_MIN` itself (the behaviour of the common two's
complement targets the source runs on; the C++ standard leaves it undefined). -/
def absInt32 (x : Int) : Int :=
  if x < 0 then Juce.toInt32 (-x) else x

/-- `DefaultHashFunctions::generateHash (const int key, const int upperLimit)`:
`std::abs (key) % upperLimit`, where C++ `%` is the truncated remainder (its sign
follows the dividend), i.e. `Int.tmod`. -/
def generateHash (key upperLimit : Int) : Int :=
  (absInt32 key).tmod upperLimit

end DefaultHashFunctions

/-- `isPositiveAndBelow (valueToTest, upperLimit)`: the range check that
`HashMap::generateHashFor` asserts on the hash result. -/
def isPositiveAndBelow (valueToTest upperLimit : Int) : Bool :=
  decide (0 ≤ valueToTest) && decide (valueToTest < upperLimit)

/-- The default int hash as a slot index: for keys strictly above `INT_MIN` the C++
`abs` does not overflow and `abs (key) % numSlots` is `|key| mod numSlots` as a
natural number (`generateHash_eq_intHash` below makes the agreement precise). -/
def intHash (k : Int) (n : Nat) : Nat :=
  k.natAbs % n


section ListFacts

variable {α : Type}

theorem getD_replicate_nil (n i : Nat) :
    (List.replicate n ([] : List α)).getD i [] = [] := by
  induction n generalizing i with
  | zero => simp [List.getD]
  | succ n ih =>
    cases i with
    | zero => simp [List.replicate]
    | succ j => simpa [List.replicate] using ih j

theorem flatten_replicate_nil (n : Nat) :
    (List.replicate n ([] : List α)).flatten = [] := by
  induction n with
  | zero => rfl
  | succ n ih => simpa [List.replicate] using ih

theorem getD_set_self (L : List α) (i : Nat) (a d : α) (h : i < L.length) :
    (L.set i a).getD i d = a := by
  induction L generalizing i with
  | nil => simp at h
  | cons hd tl ih =>
    cases i with
    | zero => rfl
    | succ j => simpa using ih j (by simpa using h)

theorem getD_set_ne (L : List α) (i j : Nat) (a d : α) (hne : i ≠ j) :
    (L.set i a).getD j d = L.getD j d := by
  induction L generalizing i j with
  | nil => rfl
  | cons hd tl ih =>
    cases i with
    | zero =>
      cases j with
      | zero => exact absurd rfl hne
      | succ j' => rfl
    | succ i' =>
      cases j with
      | zero => rfl
      | succ j' => simpa using ih i' j' (fun hcontra => hne (by rw [hcontra]))

theorem getD_of_length_le (L : List α) (i : Nat) (d : α) (h : L.length ≤ i) :
    L.getD i d = d := by
  induction L generalizing i with
  | nil => rfl
  | cons hd tl ih =>
    cases i with
    | zero => simp at h
    | succ j => simpa using ih j (by simpa using h)

theorem set_getD_self (L : List α) (i : Nat) (d : α) (h : i < L.length) :
    L.set i (L.getD i d) = L := by
  induction L generalizing i with
  | nil => rfl
  | cons hd tl ih =>
    cases i with
    | zero => rfl
    | succ j => simpa using ih j (by simpa using h)

theorem flatten_map_filter (q : α → Bool) (L : List (List α)) :
    (L.map (List.filter q)).flatten = L.flatten.filter q := by
  induction L with
  | nil => rfl
  | cons hd tl ih =>
    rw [List.map_cons, List.flatten_cons, List.flatten_cons, List.filter_append, ih]

theorem map_filter_getD (q : α → Bool) (L : List (List α)) (i : Nat) :
    (L.map (List.filter q)).getD i [] = (L.getD i []).filter q := by
  induction L generalizing i with
  | nil => rfl
  | cons hd tl ih =>
    cases i with
    | zero => rfl
    | succ j => simpa using ih j

theorem map_nil_getD (L : List (List α)) (i : Nat) :
    (L.map (fun _ => ([] : List α))).getD i [] = [] := by
  induction L generalizing i with
  | nil => rfl
  | cons hd tl ih =>
    cases i with
    | zero => rfl
    | succ j => simpa using ih j

theorem flatten_map_nil (L : List (List α)) :
    (L.map (fun _ => ([] : List α))).flatten = [] := by
  induction L with
  | nil => rfl
  | cons hd tl ih => simpa using ih

theorem length_filter_not_countP (p : α → Bool) (l : List α) :
    (l.filter (fun a => !p a)).length + l.countP p = l.length := by
  induction l with
  | nil => rfl
  | cons a rest ih =>
    rcases hpa : p a with _ | _
    · rw [List.filter_cons_of_pos (by simp [hpa]), List.countP_cons_of_neg _ _ (by simp [hpa])]
      simp only [List.length_cons]
      omega
    · rw [List.filter_cons_of_neg (by simp [hpa]), List.countP_cons_of_pos _ _ (by simp [hpa])]
      simp only [List.length_cons]
      omega

theorem slots_decomp (L : List (List α)) (i : Nat) (h : i < L.length) :
    ∃ P S, P.length = i ∧ L = P ++ (L.getD i []) :: S ∧
      ∀ c, L.set i c = P ++ c :: S := by
  induction L generalizing i with
  | nil => simp at h
  | cons hd tl ih =>
    cases i with
    | zero => exact ⟨[], tl, rfl, by simp, fun c => by simp⟩
    | succ j =>
      obtain ⟨P, S, hP, hL, hset⟩ := ih j (by simpa using h)
      refine ⟨hd :: P, S, by simp [hP], ?_, fun c => ?_⟩
      · simpa using hL
      · simpa using hset c

theorem getD_prefix_of_lt (P S : List (List α)) (j : Nat) (h : j < P.length) :
    (P ++ S).getD j [] = P.getD j [] := by
  induction P generalizing j with
  | nil => simp at h
  | cons hd tl ih =>
    cases j with
    | zero => simp
    | succ j' => simpa using ih j' (by simpa using h)

theorem getD_suffix (P : List (List α)) (c : List α) (S : List (List α)) (j : Nat)
    (d : List α) : (P ++ c :: S).getD (P.length + 1 + j) d = S.getD j d := by
  induction P with
  | nil =>
    show (c :: S).getD (0 + 1 + j) d = S.getD j d
    rw [show 0 + 1 + j = j + 1 by omega, List.getD_cons_succ]
  | cons hd tl ih =>
    have harith : (hd :: tl).length + 1 + j = (tl.length + 1 + j) + 1 := by
      simp [List.length_cons]; omega
    rw [show ((hd :: tl) ++ c :: S) = hd :: (tl ++ c :: S) from rfl, harith,
      List.getD_cons_succ]
    exact ih

theorem exists_index_of_mem_flatten (L : List (List α)) (e : α) (h : e ∈ L.flatten) :
    ∃ j, j < L.length ∧ e ∈ L.getD j [] := by
  induction L with
  | nil => simp at h
  | cons hd tl ih =>
    rw [List.flatten_cons] at h
    rcases List.mem_append.1 h with hmem | hmem
    · exact ⟨0, by simp, by simpa using hmem⟩
    · obtain ⟨j, hj, hm⟩ := ih hmem
      exact ⟨j + 1, by simpa using hj, by simpa using hm⟩

theorem find?_append_none {p : α → Bool} (l₁ l₂ : List α)
    (h : l₁.find? p = none) : (l₁ ++ l₂).find? p = l₂.find? p := by
  induction l₁ with
  | nil => simp
  | cons a l ih =>
    rcases hpa : p a with _ | _
    · rw [List.find?_cons_of_neg _ (by simp [hpa])] at h
      rw [List.cons_append, List.find?_cons_of_neg _ (by simp [hpa])]
      exact ih h
    · rw [List.find?_cons_of_pos _ hpa] at h
      cases h

theorem find?_append_some {p : α → Bool} (l₁ l₂ : List α) (e : α)
    (h : l₁.find? p = some e) : (l₁ ++ l₂).find? p = some e := by
  induction l₁ with
  | nil => cases h
  | cons a l ih =>
    rcases hpa : p a with _ | _
    · rw [List.find?_cons_of_neg _ (by simp [hpa])] at h
      rw [List.cons_append, List.find?_cons_of_neg _ (by simp [hpa])]
      exact ih h
    · rw [List.find?_cons_of_pos _ hpa] at h
      rw [List.cons_append, List.find?_cons_of_pos _ hpa]
      exact h

theorem find?_eq_some_of_unique {p : α → Bool} (l : List α) (e : α)
    (hmem : e ∈ l) (hpe : p e = true)
    (huniq : ∀ e' ∈ l, p e' = true → e' = e) : l.find? p = some e := by
  induction l with
  | nil => simp at hmem
  | cons a rest ih =>
    rcases hpa : p a with _ | _
    · rw [List.find?_cons_of_neg _ (by simp [hpa])]
      rcases List.mem_cons.1 hmem with rfl | hmem'
      · rw [hpe] at hpa; cases hpa
      · exact ih hmem' (fun e' he' hp => huniq e' (List.mem_cons_of_mem _ he') hp)
    · rw [List.find?_cons_of_pos _ hpa]
      exact congrArg some (huniq a (List.mem_cons_self a rest) hpa)

theorem find?_filter_keep {p q : α → Bool} (l : List α) (e : α)
    (h : l.find? p = some e) (hq : q e = true) : (l.filter q).find? p = some e := by
  induction l with
  | nil => cases h
  | cons a rest ih
  => rcases hpa : p a with _ | _
     · rw [List.find?_cons_of_neg _ (by simp [hpa])] at h
       rcases hqa : q a with _ | _
       · simpa [List.filter_cons, hqa] using ih h
       · rw [List.filter_cons_of_pos hqa]
         rw [List.find?_cons_of_neg _ (by simp [hpa])]
         exact ih h
     · rw [List.find?_cons_of_pos _ hpa] at h
       obtain rfl := Option.some.inj h
       rw [List.filter_cons_of_pos hq, List.find?_cons_of_pos _ hpa]

theorem find?_filter_none {p q : α → Bool} (l : List α)
    (h : l.find? p = none) : (l.filter q).find? p = none := by
  rw [List.find?_eq_none] at h ⊢
  exact fun x hx => h x (List.mem_of_mem_filter hx)

end ListFacts

namespace HashMap

variable {K V : Type} [DecidableEq K] [DecidableEq V]

theorem orO_none_right {α : Type} (x : Option α) : orO x none = x := by
  cases x <;> rfl

theorem map_fst_replaceFirstValue (l : List (K × V)) (k : K) (v : V) :
    (replaceFirstValue l k v).map Prod.fst = l.map Prod.fst := by
  induction l with
  | nil => rfl
  | cons e rest ih =>
    by_cases he : e.1 = k
    · simp [replaceFirstValue, he]
    · simp [replaceFirstValue, he, ih]

theorem length_replaceFirstValue (l : List (K × V)) (k : K) (v : V) :
    (replaceFirstValue l k v).length = l.length := by
  have h := congrArg List.length (map_fst_replaceFirstValue l k v)
  simpa using h

theorem find?_replaceFirstValue_self (l : List (K × V)) (k : K) (v : V)
    (h : l.any (fun e => decide (e.1 = k)) = true) :
    (replaceFirstValue l k v).find? (fun e => decide (e.1 = k)) = some (k, v) := by
  induction l with
  | nil => simp at h
  | cons e rest ih =>
    by_cases he : e.1 = k
    · rw [show replaceFirstValue (e :: rest) k v = (e.1, v) :: rest by
        simp [replaceFirstValue, he]]
      rw [List.find?_cons_of_pos _ (by simp [he]), he]
    · rw [show replaceFirstValue (e :: rest) k v = e :: replaceFirstValue rest k v by
        simp [replaceFirstValue, he]]
      rw [List.find?_cons_of_neg _ (by simp [he])]
      exact ih (by simpa [List.any_cons, he] using h)

theorem find?_replaceFirstValue_ne (l : List (K × V)) (k k' : K) (v : V)
    (hne : k' ≠ k) :
    (replaceFirstValue l k v).find? (fun e => decide (e.1 = k'))
      = l.find? (fun e => decide (e.1 = k')) := by
  induction l with
  | nil => rfl
  | cons e rest ih =>
    by_cases he : e.1 = k
    · rw [show replaceFirstValue (e :: rest) k v = (e.1, v) :: rest by
        simp [replaceFirstValue, he]]
      have hne' : ¬(e.1 = k') := by rw [he]; exact fun hc => hne hc.symm
      rw [List.find?_cons_of_neg _ (by simp [hne']),
        List.find?_cons_of_neg _ (by simp [hne'])]
    · rw [show replaceFirstValue (e :: rest) k v = e :: replaceFirstValue rest k v by
        simp [replaceFirstValue, he]]
      by_cases he' : e.1 = k'
      · rw [List.find?_cons_of_pos _ (by simp [he']),
          List.find?_cons_of_pos _ (by simp [he'])]
      · rw [List.find?_cons_of_neg _ (by simp [he']),
          List.find?_cons_of_neg _ (by simp [he'])]
        exact ih

theorem eq_of_keyUnique_mem {l : List (K × V)} (h : keyUnique l) {e e' : K × V}
    (he : e ∈ l) (he' : e' ∈ l) (hk : e.1 = e'.1) : e = e' := by
  induction l with
  | nil => simp at he
  | cons a rest ih =>
    have hnodup : a.1 ∉ rest.map Prod.fst ∧ keyUnique rest := by
      have h' := h
      rw [keyUnique, List.map_cons, List.nodup_cons] at h'
      exact h'
    rcases List.mem_cons.1 he with rfl | hmem
    · rcases List.mem_cons.1 he' with rfl | hmem'
      · rfl
      · exact absurd (by rw [hk]; exact List.mem_map_of_mem Prod.fst hmem') hnodup.1
    · rcases List.mem_cons.1 he' with rfl | hmem'
      · exact absurd (by rw [← hk]; exact List.mem_map_of_mem Prod.fst hmem) hnodup.1
      · exact ih hnodup.2 hmem hmem'

theorem keyUnique_of_perm {l₁ l₂ : List (K × V)} (hperm : l₁.Perm l₂)
    (h : keyUnique l₂) : keyUnique l₁ :=
  (h.perm (hperm.map Prod.fst).symm)

theorem find?_key_perm {l₁ l₂ : List (K × V)} (hperm : l₁.Perm l₂)
    (h : keyUnique l₂) (k : K) :
    l₁.find? (fun e => decide (e.1 = k)) = l₂.find? (fun e => decide (e.1 = k)) := by
  rcases hfind : l₂.find? (fun e => decide (e.1 = k)) with _ | e
  · rw [hfind, List.find?_eq_none]
    exact fun x hx => (List.find?_eq_none.1 hfind) x (hperm.mem_iff.1 hx)
  · rw [hfind]
    have hpe := List.find?_some hfind
    have hmem := List.mem_of_find?_eq_some hfind
    refine find?_eq_some_of_unique (p := fun e => decide (e.1 = k)) _ e
      (hperm.mem_iff.2 hmem) hpe ?_
    intro e' he' hp'
    exact eq_of_keyUnique_mem h (hperm.mem_iff.1 he') hmem
      (by simp only [decide_eq_true_eq] at hp' hpe; rw [hp', hpe])

theorem lastAssigned_cons (e : K × V) (ops : List (K × V)) (k : K) :
    lastAssigned (e :: ops) k
      = orO (lastAssigned ops k) (if e.1 = k then some e.2 else none) := by
  unfold lastAssigned
  by_cases he : e.1 = k
  · rw [List.filter_cons_of_pos (by simp [he]), if_pos he]
    rcases hl : ops.filter (fun x => decide (x.1 = k)) with _ | ⟨x, xs⟩
    · rw [hl]
      simp [orO]
    · rw [hl, List.getLast?_cons_cons]
      rcases hg : (x :: xs).getLast? with _ | y
      · simp at hg
      · simp [orO]
  · rw [List.filter_cons_of_neg (by simp [he]), if_neg he, orO_none_right]

theorem lastAssigned_eq_find? {l : List (K × V)} (h : keyUnique l) (k : K) :
    lastAssigned l k = (l.find? (fun e => decide (e.1 = k))).map Prod.snd := by
  induction l with
  | nil => rfl
  | cons e rest ih =>
    have hnodup : e.1 ∉ rest.map Prod.fst ∧ keyUnique rest := by
      have h' := h
      rw [keyUnique, List.map_cons, List.nodup_cons] at h'
      exact h'
    rw [lastAssigned_cons]
    by_cases he : e.1 = k
    · have hfil : rest.filter (fun x => decide (x.1 = k)) = [] := by
        rw [List.filter_eq_nil_iff]
        intro x hx
        simp only [decide_eq_true_eq]
        intro hk
        exact hnodup.1 (by rw [he, ← hk]; exact List.mem_map_of_mem Prod.fst hx)
      rw [List.find?_cons_of_pos _ (by simp [he])]
      simp [lastAssigned, hfil, he, orO]
    · rw [List.find?_cons_of_neg _ (by simp [he]), if_neg he, orO_none_right]
      exact ih hnodup.2

theorem lastAssigned_of_mem {l : List (K × V)} (h : keyUnique l) {k : K} {v : V}
    (hmem : (k, v) ∈ l) : lastAssigned l k = some v := by
  rw [lastAssigned_eq_find? h]
  rw [find?_eq_some_of_unique l (k, v) hmem (by simp) ?_]
  · rfl
  · intro e' he' hp'
    exact eq_of_keyUnique_mem h he' hmem (by simpa using hp')

theorem entries_emptyMap (n : Int) : entries (emptyMap n : HashMap K V) = [] := by
  simp [entries, emptyMap, flatten_replicate_nil]

theorem emptyMap_inv (hf : K → Nat → Nat) (n : Int) (hn : 0 < n.toNat) :
    Inv hf (emptyMap n : HashMap K V) := by
  refine ⟨by simpa [emptyMap] using hn, ?_, ?_, ?_⟩
  · intro i e hmem
    rw [show (emptyMap n : HashMap K V).slots = List.replicate n.toNat [] from rfl,
      getD_replicate_nil] at hmem
    simp at hmem
  · rw [keyUnique, entries_emptyMap]
    simp
  · rw [entries_emptyMap]
    rfl

theorem val?_emptyMap (hf : K → Nat → Nat) (n : Int) (k : K) :
    val? hf (emptyMap n : HashMap K V) k = none := by
  rw [val?, show (emptyMap n : HashMap K V).slots = List.replicate n.toNat [] from rfl,
    getD_replicate_nil]
  rfl

theorem lookup_eq_getD_val? [Inhabited V] (hf : K → Nat → Nat) (m : HashMap K V)
    (k : K) : lookup hf m k = (val? hf m k).getD default := by
  rw [lookup, val?]
  rcases hfind : (m.slots.getD (generateHashFor hf m k) []).find?
      (fun e => decide (e.1 = k)) with _ | e <;> rw [hfind] <;> rfl

theorem contains_false_iff (hf : K → Nat → Nat) (m : HashMap K V) (k : K) :
    contains hf m k = false ↔ val? hf m k = none := by
  rw [contains, val?]
  constructor
  · intro h
    rw [List.any_eq_false] at h
    rw [List.find?_eq_none.2 h]
    rfl
  · intro h
    rcases hfind : (m.slots.getD (generateHashFor hf m k) []).find?
        (fun e => decide (e.1 = k)) with _ | e
    · rw [List.any_eq_false]
      exact List.find?_eq_none.1 hfind
    · rw [hfind] at h
      cases h

theorem orO_assoc {α : Type} (a b c : Option α) :
    orO (orO a b) c = orO a (orO b c) := by
  cases a <;> rfl

theorem newKeysF_congr (g₁ g₂ : K → Option V) (h : ∀ k, g₁ k = g₂ k) :
    ∀ es, newKeysF g₁ es = newKeysF g₂ es := by
  intro es
  induction es generalizing g₁ g₂ with
  | nil => rfl
  | cons e rest ih =>
    rw [newKeysF, newKeysF, h e.1]
    exact congrArg _ (ih _ _ (fun k => by by_cases hk : k = e.1 <;> simp [hk, h k]))

theorem newKeysF_all_new (g : K → Option V) :
    ∀ es, keyUnique es → (∀ e ∈ es, g e.1 = none) → newKeysF g es = es.length := by
  intro es
  induction es generalizing g with
  | nil => intro _ _; rfl
  | cons e rest ih =>
    intro hnodup hnone
    have hsplit : e.1 ∉ rest.map Prod.fst ∧ keyUnique rest := by
      have h' := hnodup
      rw [keyUnique, List.map_cons, List.nodup_cons] at h'
      exact h'
    rw [newKeysF, if_pos (hnone e (List.mem_cons_self e rest))]
    rw [ih _ hsplit.2 ?_]
    · simp [Nat.add_comm]
    · intro x hx
      have hne : ¬(x.1 = e.1) := fun hc =>
        hsplit.1 (hc ▸ List.mem_map_of_mem Prod.fst hx)
      rw [if_neg hne]
      exact hnone x (List.mem_cons_of_mem e hx)

theorem val?_eq_entries_find? (hf : K → Nat → Nat)
    (Hhf : ∀ k n, 0 < n → hf k n < n) {m : HashMap K V} (hInv : Inv hf m) (k : K) :
    val? hf m k = ((entries m).find? (fun e => decide (e.1 = k))).map Prod.snd := by
  obtain ⟨hpos, hbucket, hnodup, hcount⟩ := hInv
  have hlt : hf k m.slots.length < m.slots.length := Hhf k _ hpos
  obtain ⟨P, S, hP, hL, hset⟩ := slots_decomp m.slots (hf k m.slots.length) hlt
  have hentries : entries m
      = P.flatten ++ ((m.slots.getD (hf k m.slots.length) []) ++ S.flatten) := by
    rw [entries]
    conv_lhs => rw [hL]
    rw [List.flatten_append, List.flatten_cons]
  have hPnone : P.flatten.find? (fun e => decide (e.1 = k)) = none := by
    rw [List.find?_eq_none]
    intro e he
    simp only [decide_eq_true_eq]
    intro hek
    obtain ⟨j, hj, hmem⟩ := exists_index_of_mem_flatten P e he
    have hgd : m.slots.getD j [] = P.getD j [] := by
      rw [hL]
      exact getD_prefix_of_lt P _ j hj
    have hb := hbucket j e (by rw [hgd]; exact hmem)
    rw [hek] at hb
    omega
  have hSnone : S.flatten.find? (fun e => decide (e.1 = k)) = none := by
    rw [List.find?_eq_none]
    intro e he
    simp only [decide_eq_true_eq]
    intro hek
    obtain ⟨j, hj, hmem⟩ := exists_index_of_mem_flatten S e he
    have hgd : m.slots.getD (P.length + 1 + j) [] = S.getD j [] := by
      rw [hL]
      exact getD_suffix P _ S j []
    have hb := hbucket (P.length + 1 + j) e (by rw [hgd]; exact hmem)
    rw [hek] at hb
    omega
  rw [hentries, find?_append_none _ _ hPnone]
  rw [val?, generateHashFor]
  rcases hfind : (m.slots.getD (hf k m.slots.length) []).find?
      (fun e => decide (e.1 = k)) with _ | e
  · rw [hfind, find?_append_none _ _ hfind, hSnone]
  · rw [hfind, find?_append_some _ _ _ hfind]

theorem contains_true_iff (hf : K → Nat → Nat) (m : HashMap K V) (k : K) :
    contains hf m k = true ↔ ∃ v, val? hf m k = some v := by
  constructor
  · intro h
    rcases hv : val? hf m k with _ | v
    · rw [← contains_false_iff] at hv
      rw [h] at hv
      cases hv
    · exact ⟨v, rfl⟩
  · intro ⟨v, hv⟩
    rcases hc : contains hf m k with _ | _
    · rw [(contains_false_iff hf m k).1 hc] at hv
      cases hv
    · rfl

theorem setStep_eq_update (hf : K → Nat → Nat) (gr : HashMap K V → HashMap K V)
    (m : HashMap K V) (k : K) (v : V) (hc : contains hf m k = true) :
    setStep hf gr m k v
      = ⟨m.slots.set (hf k m.slots.length)
          (replaceFirstValue (m.slots.getD (hf k m.slots.length) []) k v),
        m.totalNumItems⟩ := by
  rw [contains, generateHashFor] at hc
  simp only [setStep]
  rw [if_pos hc]

theorem setStep_eq_insert (hf : K → Nat → Nat) (gr : HashMap K V → HashMap K V)
    (m : HashMap K V) (k : K) (v : V) (hc : contains hf m k = false)
    (hng : m.totalNumItems + 1 ≤ (((m.slots.length * 3) / 2 : Nat) : Int)) :
    setStep hf gr m k v
      = ⟨m.slots.set (hf k m.slots.length)
          ((k, v) :: m.slots.getD (hf k m.slots.length) []),
        m.totalNumItems + 1⟩ := by
  rw [contains, generateHashFor] at hc
  simp only [setStep, List.length_set]
  rw [if_neg (by rw [hc]; exact Bool.false_ne_true), if_neg (not_lt.2 hng)]

theorem setStep_eq_grow (hf : K → Nat → Nat) (gr : HashMap K V → HashMap K V)
    (m : HashMap K V) (k : K) (v : V) (hc : contains hf m k = false)
    (hg : (((m.slots.length * 3) / 2 : Nat) : Int) < m.totalNumItems + 1) :
    setStep hf gr m k v
      = gr ⟨m.slots.set (hf k m.slots.length)
          ((k, v) :: m.slots.getD (hf k m.slots.length) []),
        m.totalNumItems + 1⟩ := by
  rw [contains, generateHashFor] at hc
  simp only [setStep, List.length_set]
  rw [if_neg (by rw [hc]; exact Bool.false_ne_true), if_pos (by exact hg)]

theorem key_not_in_entries (hf : K → Nat → Nat) {m : HashMap K V} (hInv : Inv hf m) (k : K)
    (hc : contains hf m k = false) : ∀ e ∈ entries m, ¬(e.1 = k) := by
  intro e he hek
  obtain ⟨j, hj, hmem⟩ := exists_index_of_mem_flatten m.slots e he
  have hb := hInv.2.1 j e hmem
  rw [hek] at hb
  rw [contains, List.any_eq_false] at hc
  refine hc e ?_ (by simp [hek])
  show e ∈ m.slots.getD (hf k m.slots.length) []
  rw [hb]
  exact hmem

theorem update_path_spec (hf : K → Nat → Nat)
    (Hhf : ∀ k n, 0 < n → hf k n < n) {m : HashMap K V} (hInv : Inv hf m)
    (k : K) (v : V) (hc : contains hf m k = true) :
    Inv hf (⟨m.slots.set (hf k m.slots.length)
        (replaceFirstValue (m.slots.getD (hf k m.slots.length) []) k v),
      m.totalNumItems⟩ : HashMap K V) ∧
    (∀ k', val? hf (⟨m.slots.set (hf k m.slots.length)
        (replaceFirstValue (m.slots.getD (hf k m.slots.length) []) k v),
      m.totalNumItems⟩ : HashMap K V) k'
        = if k' = k then some v else val? hf m k') := by
  obtain ⟨hpos, hbucket, hnodup, hcount⟩ := hInv
  have hlt : hf k m.slots.length < m.slots.length := Hhf k _ hpos
  obtain ⟨P, S, hP, hL, hset⟩ := slots_decomp m.slots (hf k m.slots.length) hlt
  set U : HashMap K V := ⟨m.slots.set (hf k m.slots.length)
      (replaceFirstValue (m.slots.getD (hf k m.slots.length) []) k v),
    m.totalNumItems⟩ with hU
  have hlen' : U.slots.length = m.slots.length := List.length_set _ _ _
  have hany : (m.slots.getD (hf k m.slots.length) []).any
      (fun e => decide (e.1 = k)) = true := hc
  have hmapfst : (entries U).map Prod.fst = (entries m).map Prod.fst := by
    rw [entries, entries, hU]
    show (m.slots.set _ _).flatten.map Prod.fst = _
    rw [hset, List.flatten_append, List.flatten_cons]
    conv_rhs => rw [hL, List.flatten_append, List.flatten_cons]
    simp only [List.map_append, map_fst_replaceFirstValue]
  constructor
  · refine ⟨by rw [hlen']; exact hpos, ?_, ?_, ?_⟩
    · intro i e hmem
      rw [hlen']
      by_cases hi : i = hf k m.slots.length
      · subst hi
        rw [show U.slots = m.slots.set (hf k m.slots.length)
            (replaceFirstValue (m.slots.getD (hf k m.slots.length) []) k v) from rfl,
          getD_set_self _ _ _ _ hlt] at hmem
        have hkey : e.1 ∈ (m.slots.getD (hf k m.slots.length) []).map Prod.fst := by
          rw [← map_fst_replaceFirstValue _ k v]
          exact List.mem_map_of_mem Prod.fst hmem
        obtain ⟨e₀, he₀, heq⟩ := List.mem_map.1 hkey
        rw [← heq]
        exact hbucket _ e₀ he₀
      · rw [show U.slots = m.slots.set (hf k m.slots.length)
            (replaceFirstValue (m.slots.getD (hf k m.slots.length) []) k v) from rfl,
          getD_set_ne _ _ _ _ _ (fun hcontra => hi hcontra.symm)] at hmem
        exact hbucket i e hmem
    · rw [keyUnique, hmapfst]
      exact hnodup
    · have hlenE : (entries U).length = (entries m).length := by
        have h1 := congrArg List.length hmapfst
        simpa using h1
      rw [show U.totalNumItems = m.totalNumItems from rfl, hlenE]
      exact hcount
  · intro k'
    have hgen : generateHashFor hf U k' = hf k' m.slots.length := by
      rw [generateHashFor, hlen']
    by_cases hk' : k' = k
    · subst hk'
      rw [if_pos rfl, val?, hgen]
      rw [show U.slots = m.slots.set (hf k' m.slots.length)
          (replaceFirstValue (m.slots.getD (hf k' m.slots.length) []) k' v) from rfl,
        getD_set_self _ _ _ _ hlt]
      rw [find?_replaceFirstValue_self _ _ _ hany]
      rfl
    · rw [if_neg hk', val?, hgen, val?, generateHashFor]
      by_cases hh : hf k' m.slots.length = hf k m.slots.length
      · rw [hh]
        rw [show U.slots = m.slots.set (hf k m.slots.length)
            (replaceFirstValue (m.slots.getD (hf k m.slots.length) []) k v) from rfl,
          getD_set_self _ _ _ _ hlt]
        rw [find?_replaceFirstValue_ne _ _ _ _ hk']
      · rw [show U.slots = m.slots.set (hf k m.slots.length)
            (replaceFirstValue (m.slots.getD (hf k m.slots.length) []) k v) from rfl,
          getD_set_ne _ _ _ _ _ (fun hcontra => hh hcontra.symm)]

theorem insert_path_spec (hf : K → Nat → Nat)
    (Hhf : ∀ k n, 0 < n → hf k n < n) {m : HashMap K V} (hInv : Inv hf m)
    (k : K) (v : V) (hc : contains hf m k = false) :
    Inv hf (⟨m.slots.set (hf k m.slots.length)
        ((k, v) :: m.slots.getD (hf k m.slots.length) []),
      m.totalNumItems + 1⟩ : HashMap K V) ∧
    (∀ k', val? hf (⟨m.slots.set (hf k m.slots.length)
        ((k, v) :: m.slots.getD (hf k m.slots.length) []),
      m.totalNumItems + 1⟩ : HashMap K V) k'
        = if k' = k then some v else val? hf m k') ∧
    (⟨m.slots.set (hf k m.slots.length)
        ((k, v) :: m.slots.getD (hf k m.slots.length) []),
      m.totalNumItems + 1⟩ : HashMap K V).slots.length = m.slots.length := by
  have hKabs := key_not_in_entries hf hInv k hc
  obtain ⟨hpos, hbucket, hnodup, hcount⟩ := hInv
  have hlt : hf k m.slots.length < m.slots.length := Hhf k _ hpos
  obtain ⟨P, S, hP, hL, hset⟩ := slots_decomp m.slots (hf k m.slots.length) hlt
  set G : HashMap K V := ⟨m.slots.set (hf k m.slots.length)
      ((k, v) :: m.slots.getD (hf k m.slots.length) []),
    m.totalNumItems + 1⟩ with hG
  have hlen' : G.slots.length = m.slots.length := List.length_set _ _ _
  have hEm : entries m
      = P.flatten ++ (m.slots.getD (hf k m.slots.length) [] ++ S.flatten) := by
    rw [entries]
    conv_lhs => rw [hL]
    rw [List.flatten_append, List.flatten_cons]
  have hperm : (entries G).Perm ((k, v) :: entries m) := by
    have hEG : entries G = P.flatten
        ++ ((k, v) :: (m.slots.getD (hf k m.slots.length) [] ++ S.flatten)) := by
      rw [entries]
      show (m.slots.set _ _).flatten = _
      rw [hset, List.flatten_append, List.flatten_cons, List.cons_append]
    rw [hEG, hEm]
    exact List.perm_middle
  constructor
  · refine ⟨by rw [hlen']; exact hpos, ?_, ?_, ?_⟩
    · intro i e hmem
      rw [hlen']
      by_cases hi : i = hf k m.slots.length
      · subst hi
        rw [show G.slots = m.slots.set (hf k m.slots.length)
            ((k, v) :: m.slots.getD (hf k m.slots.length) []) from rfl,
          getD_set_self _ _ _ _ hlt] at hmem
        rcases List.mem_cons.1 hmem with rfl | hmem'
        · rfl
        · exact hbucket _ e hmem'
      · rw [show G.slots = m.slots.set (hf k m.slots.length)
            ((k, v) :: m.slots.getD (hf k m.slots.length) []) from rfl,
          getD_set_ne _ _ _ _ _ (fun hcontra => hi hcontra.symm)] at hmem
        exact hbucket i e hmem
    · have hnotin : k ∉ (entries m).map Prod.fst := by
        intro hmem
        obtain ⟨e, he, hek⟩ := List.mem_map.1 hmem
        exact hKabs e he hek
      refine keyUnique_of_perm hperm ?_
      rw [keyUnique, List.map_cons, List.nodup_cons]
      exact ⟨hnotin, hnodup⟩
    · have hlenE : (entries G).length = (entries m).length + 1 := by
        rw [hperm.length_eq, List.length_cons]
      rw [show G.totalNumItems = m.totalNumItems + 1 from rfl, hlenE, hcount]
      push_cast
      ring
  constructor
  · intro k'
    have hgen : generateHashFor hf G k' = hf k' m.slots.length := by
      rw [generateHashFor, hlen']
    by_cases hk' : k' = k
    · subst hk'
      rw [if_pos rfl, val?, hgen]
      rw [show G.slots = m.slots.set (hf k' m.slots.length)
          ((k', v) :: m.slots.getD (hf k' m.slots.length) []) from rfl,
        getD_set_self _ _ _ _ hlt]
      rw [List.find?_cons_of_pos _ (by simp)]
      rfl
    · rw [if_neg hk', val?, hgen, val?, generateHashFor]
      by_cases hh : hf k' m.slots.length = hf k m.slots.length
      · rw [hh]
        rw [show G.slots = m.slots.set (hf k m.slots.length)
            ((k, v) :: m.slots.getD (hf k m.slots.length) []) from rfl,
          getD_set_self _ _ _ _ hlt]
        rw [List.find?_cons_of_neg _ (by simp; exact fun hcontra => hk' hcontra.symm)]
      · rw [show G.slots = m.slots.set (hf k m.slots.length)
            ((k, v) :: m.slots.getD (hf k m.slots.length) []) from rfl,
          getD_set_ne _ _ _ _ _ (fun hcontra => hh hcontra.symm)]
  · exact hlen'

theorem setStep_spec (hf : K → Nat → Nat) (Hhf : ∀ k n, 0 < n → hf k n < n)
    (gr : HashMap K V → HashMap K V) (hgr : GrowSpec hf gr) :
    SetSpec hf (setStep hf gr) := by
  intro m k v hInv
  rcases hcb : contains hf m k with _ | _
  · have hvnone : val? hf m k = none := (contains_false_iff hf m k).1 hcb
    obtain ⟨hGInv, hGval, hGlen⟩ := insert_path_spec hf Hhf hInv k v hcb
    by_cases hg : (((m.slots.length * 3) / 2 : Nat) : Int) < m.totalNumItems + 1
    · rw [setStep_eq_grow hf gr m k v hcb hg]
      obtain ⟨hInv2, hval2, hcount2, j2, hlen2⟩ := hgr _ hGInv
      refine ⟨hInv2, ?_, ?_, ?_⟩
      · intro k'
        rw [hval2 k', hGval k']
      · rw [hcount2, hvnone]
        simp
      · exact ⟨j2, by rw [hlen2, hGlen]⟩
    · rw [setStep_eq_insert hf gr m k v hcb (not_lt.1 hg)]
      refine ⟨hGInv, hGval, ?_, ⟨0, by rw [hGlen]; ring⟩⟩
      rw [hvnone]
      simp
  · have hvsome : val? hf m k ≠ none := by
      intro hn
      rw [(contains_false_iff hf m k).2 hn] at hcb
      cases hcb
    rw [setStep_eq_update hf gr m k v hcb]
    obtain ⟨hUInv, hUval⟩ := update_path_spec hf Hhf hInv k v hcb
    refine ⟨hUInv, hUval, ?_, ⟨0, by rw [List.length_set]; ring⟩⟩
    show m.totalNumItems = m.totalNumItems + (if val? hf m k = none then 1 else 0)
    rw [if_neg hvsome]
    ring

theorem insertList_spec (hf : K → Nat → Nat)
    (g : HashMap K V → K → V → HashMap K V) (hg : SetSpec hf g) :
    ∀ (es : List (K × V)) (t : HashMap K V), Inv hf t →
      Inv hf (insertList g t es) ∧
      (∀ k, val? hf (insertList g t es) k = orO (lastAssigned es k) (val? hf t k)) ∧
      (insertList g t es).totalNumItems
        = t.totalNumItems + (newKeysF (val? hf t) es : Int) ∧
      (∃ j, (insertList g t es).slots.length = 2 ^ j * t.slots.length) := by
  intro es
  induction es with
  | nil =>
    intro t hInv
    exact ⟨hInv, fun k => rfl, by rw [newKeysF]; simp [insertList],
      ⟨0, by rw [show insertList g t [] = t from rfl]; ring⟩⟩
  | cons e rest ih =>
    intro t hInv
    obtain ⟨hI1, hv1, hc1, j1, hl1⟩ := hg t e.1 e.2 hInv
    obtain ⟨hI2, hv2, hc2, j2, hl2⟩ := ih (g t e.1 e.2) hI1
    rw [show insertList g t (e :: rest) = insertList g (g t e.1 e.2) rest from rfl]
    refine ⟨hI2, ?_, ?_, ?_⟩
    · intro k
      rw [hv2 k, lastAssigned_cons, orO_assoc]
      have hx : val? hf (g t e.1 e.2) k
          = orO (if e.1 = k then some e.2 else none) (val? hf t k) := by
        rw [hv1 k]
        by_cases hk : k = e.1
        · subst hk
          rw [if_pos rfl, if_pos rfl]
          rfl
        · rw [if_neg hk, if_neg (fun hcontra => hk hcontra.symm)]
          rfl
      rw [hx]
    · rw [hc2, hc1]
      have hcongr := newKeysF_congr (val? hf (g t e.1 e.2))
        (fun k => if k = e.1 then some e.2 else val? hf t k) hv1 rest
      rw [hcongr, newKeysF]
      split_ifs with hnone <;> push_cast <;> ring
    · exact ⟨j2 + j1, by rw [hl2, hl1]; ring⟩

theorem setF_spec (hf : K → Nat → Nat) (Hhf : ∀ k n, 0 < n → hf k n < n) :
    ∀ fuel, SetSpec hf (setF hf fuel : HashMap K V → K → V → HashMap K V) := by
  intro fuel
  induction fuel with
  | zero =>
    exact setStep_spec hf Hhf _ (fun m hInv => ⟨hInv, fun k => rfl, rfl, ⟨0, by ring⟩⟩)
  | succ f ih =>
    refine setStep_spec hf Hhf _ ?_
    intro m' hInv'
    have hpos' := hInv'.1
    have hcast : ((m'.slots.length : Int) * 2) = ((m'.slots.length * 2 : Nat) : Int) := by
      push_cast
      ring
    have hlenempty : (emptyMap ((m'.slots.length : Int) * 2) : HashMap K V).slots.length
        = m'.slots.length * 2 := by
      rw [show (emptyMap ((m'.slots.length : Int) * 2) : HashMap K V).slots
          = List.replicate ((m'.slots.length : Int) * 2).toNat [] from rfl]
      rw [hcast, Int.toNat_natCast, List.length_replicate]
    have hemptyInv : Inv hf (emptyMap ((m'.slots.length : Int) * 2) : HashMap K V) := by
      refine emptyMap_inv hf _ ?_
      rw [hcast, Int.toNat_natCast]
      omega
    have hperm : (m'.slots.reverse.flatten).Perm (entries m') :=
      (List.reverse_perm m'.slots).flatten
    have hkeyU : keyUnique (entries m') := hInv'.2.2.1
    have hkeyUes : keyUnique m'.slots.reverse.flatten := keyUnique_of_perm hperm hkeyU
    obtain ⟨hI, hv, hc, j, hl⟩ := insertList_spec hf _ ih
      (m'.slots.reverse.flatten) _ hemptyInv
    refine ⟨hI, ?_, ?_, ?_⟩
    · intro k
      rw [hv k, val?_emptyMap, orO_none_right]
      rw [lastAssigned_eq_find? hkeyUes k, find?_key_perm hperm hkeyU k,
        ← val?_eq_entries_find? hf Hhf hInv' k]
    · rw [hc]
      have hallnone : ∀ e ∈ m'.slots.reverse.flatten,
          val? hf (emptyMap ((m'.slots.length : Int) * 2) : HashMap K V) e.1 = none :=
        fun e _ => val?_emptyMap hf _ e.1
      rw [newKeysF_all_new _ _ hkeyUes hallnone, hperm.length_eq]
      rw [show (emptyMap ((m'.slots.length : Int) * 2) : HashMap K V).totalNumItems
          = 0 from rfl]
      rw [hInv'.2.2.2]
      ring
    · exact ⟨j + 1, by rw [hl, hlenempty]; ring⟩

theorem set_spec (hf : K → Nat → Nat) (Hhf : ∀ k n, 0 < n → hf k n < n) :
    SetSpec hf (set hf : HashMap K V → K → V → HashMap K V) :=
  fun m k v hInv => setF_spec hf Hhf (fuelFor m) m k v hInv

theorem rebuild_spec (hf : K → Nat → Nat) (Hhf : ∀ k n, 0 < n → hf k n < n)
    (f : Nat) (n : Int) {m : HashMap K V} (hInv : Inv hf m) (hn : 0 < n.toNat) :
    Inv hf (insertList (setF hf f) (emptyMap n) m.slots.reverse.flatten) ∧
    (∀ k, val? hf (insertList (setF hf f) (emptyMap n) m.slots.reverse.flatten) k
      = val? hf m k) ∧
    (insertList (setF hf f) (emptyMap n) m.slots.reverse.flatten).totalNumItems
      = m.totalNumItems ∧
    (∃ j, (insertList (setF hf f) (emptyMap n) m.slots.reverse.flatten).slots.length
      = 2 ^ j * n.toNat) := by
  have hemptyInv : Inv hf (emptyMap n : HashMap K V) := emptyMap_inv hf n hn
  have hperm : (m.slots.reverse.flatten).Perm (entries m) :=
    (List.reverse_perm m.slots).flatten
  have hkeyU : keyUnique (entries m) := hInv.2.2.1
  have hkeyUes : keyUnique m.slots.reverse.flatten := keyUnique_of_perm hperm hkeyU
  obtain ⟨hI, hv, hc, j, hl⟩ := insertList_spec hf _ (setF_spec hf Hhf f)
    (m.slots.reverse.flatten) _ hemptyInv
  refine ⟨hI, ?_, ?_, ⟨j, ?_⟩⟩
  · intro k
    rw [hv k, val?_emptyMap, orO_none_right]
    rw [lastAssigned_eq_find? hkeyUes k, find?_key_perm hperm hkeyU k,
      ← val?_eq_entries_find? hf Hhf hInv k]
  · rw [hc]
    have hallnone : ∀ e ∈ m.slots.reverse.flatten,
        val? hf (emptyMap n : HashMap K V) e.1 = none :=
      fun e _ => val?_emptyMap hf _ e.1
    rw [newKeysF_all_new _ _ hkeyUes hallnone, hperm.length_eq]
    rw [show (emptyMap n : HashMap K V).totalNumItems = 0 from rfl]
    rw [hInv.2.2.2]
    ring
  · rw [hl]
    rw [show (emptyMap n : HashMap K V).slots.length
        = (List.replicate n.toNat ([] : List (K × V))).length from rfl,
      List.length_replicate]

theorem remapF_spec (hf : K → Nat → Nat) (Hhf : ∀ k n, 0 < n → hf k n < n)
    (fuel : Nat) (n : Int) {m : HashMap K V} (hInv : Inv hf m) (hn : 0 < n.toNat) :
    Inv hf (remapF hf fuel n m) ∧
    (∀ k, val? hf (remapF hf fuel n m) k = val? hf m k) ∧
    (remapF hf fuel n m).totalNumItems = m.totalNumItems ∧
    ((remapF hf fuel n m).slots.length = m.slots.length ∨
      ∃ j, (remapF hf fuel n m).slots.length = 2 ^ j * n.toNat) := by
  cases fuel with
  | zero => exact ⟨hInv, fun k => rfl, rfl, Or.inl rfl⟩
  | succ f =>
    obtain ⟨hI, hv, hc, hl⟩ := rebuild_spec hf Hhf f n hInv hn
    exact ⟨hI, hv, hc, Or.inr hl⟩

theorem remapTable_spec (hf : K → Nat → Nat) (Hhf : ∀ k n, 0 < n → hf k n < n)
    (n : Int) {m : HashMap K V} (hInv : Inv hf m) (hn : 0 < n.toNat) :
    Inv hf (remapTable hf m n) ∧
    (∀ k, val? hf (remapTable hf m n) k = val? hf m k) ∧
    (remapTable hf m n).totalNumItems = m.totalNumItems ∧
    ((remapTable hf m n).slots.length = m.slots.length ∨
      ∃ j, (remapTable hf m n).slots.length = 2 ^ j * n.toNat) :=
  remapF_spec hf Hhf (fuelFor m) n hInv hn

theorem runSets_spec (hf : K → Nat → Nat) (Hhf : ∀ k n, 0 < n → hf k n < n)
    (ops : List (K × V)) (m : HashMap K V) (hInv : Inv hf m) :
    Inv hf (runSets hf m ops) ∧
    (∀ k, val? hf (runSets hf m ops) k = orO (lastAssigned ops k) (val? hf m k)) ∧
    (runSets hf m ops).totalNumItems
      = m.totalNumItems + (newKeysF (val? hf m) ops : Int) ∧
    (∃ j, (runSets hf m ops).slots.length = 2 ^ j * m.slots.length) :=
  insertList_spec hf _ (set_spec hf Hhf) ops m hInv

theorem newKeysF_card (g : K → Option V) (ops : List (K × V)) :
    newKeysF g ops = ((ops.map Prod.fst).toFinset.filter (fun k => g k = none)).card := by
  induction ops generalizing g with
  | nil => simp [newKeysF]
  | cons e rest ih =>
    rw [newKeysF, ih]
    rw [List.map_cons, List.toFinset_cons]
    have hfilter : ((rest.map Prod.fst).toFinset.filter
          (fun k => (if k = e.1 then some e.2 else g k) = none))
        = ((rest.map Prod.fst).toFinset.filter (fun k => g k = none)).erase e.1 := by
      refine Finset.ext fun x => ?_
      by_cases hx : x = e.1 <;>
        simp [Finset.mem_filter, Finset.mem_erase, hx]
    rw [hfilter]
    by_cases hg : g e.1 = none
    · rw [if_pos hg, Finset.filter_insert, if_pos hg]
      by_cases hmem : e.1 ∈ (rest.map Prod.fst).toFinset.filter (fun k => g k = none)
      · rw [Finset.insert_eq_self.2 hmem]
        have hcard := Finset.card_erase_add_one hmem
        omega
      · rw [Finset.card_insert_of_not_mem hmem, Finset.erase_eq_of_not_mem hmem]
        omega
    · rw [if_neg hg, Finset.filter_insert, if_neg hg]
      have hnot : e.1 ∉ (rest.map Prod.fst).toFinset.filter (fun k => g k = none) := by
        simp [Finset.mem_filter, hg]
      rw [Finset.erase_eq_of_not_mem hnot]
      omega

theorem setF_update (hf : K → Nat → Nat) (fuel : Nat) (m : HashMap K V)
    (k : K) (v : V) (hc : contains hf m k = true) :
    setF hf fuel m k v
      = ⟨m.slots.set (hf k m.slots.length)
          (replaceFirstValue (m.slots.getD (hf k m.slots.length) []) k v),
        m.totalNumItems⟩ := by
  cases fuel with
  | zero => exact setStep_eq_update hf _ m k v hc
  | succ f => exact setStep_eq_update hf _ m k v hc

theorem setF_no_grow (hf : K → Nat → Nat) (fuel : Nat) (m : HashMap K V)
    (k : K) (v : V) (hc : contains hf m k = false)
    (hng : m.totalNumItems + 1 ≤ (((m.slots.length * 3) / 2 : Nat) : Int)) :
    setF hf fuel m k v
      = ⟨m.slots.set (hf k m.slots.length)
          ((k, v) :: m.slots.getD (hf k m.slots.length) []),
        m.totalNumItems + 1⟩ := by
  cases fuel with
  | zero => exact setStep_eq_insert hf _ m k v hc hng
  | succ f => exact setStep_eq_insert hf _ m k v hc hng

theorem set_no_grow (hf : K → Nat → Nat) (m : HashMap K V)
    (k : K) (v : V) (hc : contains hf m k = false)
    (hng : m.totalNumItems + 1 ≤ (((m.slots.length * 3) / 2 : Nat) : Int)) :
    set hf m k v
      = ⟨m.slots.set (hf k m.slots.length)
          ((k, v) :: m.slots.getD (hf k m.slots.length) []),
        m.totalNumItems + 1⟩ :=
  setF_no_grow hf (fuelFor m) m k v hc hng

theorem insertList_no_grow (hf : K → Nat → Nat) (Hhf : ∀ k n, 0 < n → hf k n < n)
    (fuel : Nat) :
    ∀ (es : List (K × V)) (t : HashMap K V), Inv hf t → keyUnique es →
      (∀ e ∈ es, val? hf t e.1 = none) →
      t.totalNumItems + (es.length : Int) ≤ (((t.slots.length * 3) / 2 : Nat) : Int) →
      (insertList (setF hf fuel) t es).slots.length = t.slots.length ∧
      (insertList (setF hf fuel) t es).totalNumItems
        = t.totalNumItems + (es.length : Int) ∧
      Inv hf (insertList (setF hf fuel) t es) := by
  intro es
  induction es with
  | nil =>
    intro t hInv _ _ _
    exact ⟨rfl, by simp [insertList], hInv⟩
  | cons e rest ih =>
    intro t hInv hkeyU hnone hbound
    have hsplit : e.1 ∉ rest.map Prod.fst ∧ keyUnique rest := by
      have h' := hkeyU
      rw [keyUnique, List.map_cons, List.nodup_cons] at h'
      exact h'
    have hc : contains hf t e.1 = false :=
      (contains_false_iff hf t e.1).2 (hnone e (List.mem_cons_self e rest))
    have hng : t.totalNumItems + 1 ≤ (((t.slots.length * 3) / 2 : Nat) : Int) := by
      rw [List.length_cons] at hbound
      push_cast at hbound
      omega
    have hstep := setF_no_grow hf fuel t e.1 e.2 hc hng
    obtain ⟨hI1, hv1, hl1⟩ := insert_path_spec hf Hhf hInv e.1 e.2 hc
    rw [show insertList (setF hf fuel) t (e :: rest)
        = insertList (setF hf fuel) (setF hf fuel t e.1 e.2) rest from rfl, hstep]
    have hnone' : ∀ x ∈ rest,
        val? hf (⟨t.slots.set (hf e.1 t.slots.length)
            ((e.1, e.2) :: t.slots.getD (hf e.1 t.slots.length) []),
          t.totalNumItems + 1⟩ : HashMap K V) x.1 = none := by
      intro x hx
      rw [hv1 x.1, if_neg (fun hcontra =>
        hsplit.1 (by rw [← hcontra]; exact List.mem_map_of_mem Prod.fst hx))]
      exact hnone x (List.mem_cons_of_mem e hx)
    have hbound' : (⟨t.slots.set (hf e.1 t.slots.length)
            ((e.1, e.2) :: t.slots.getD (hf e.1 t.slots.length) []),
          t.totalNumItems + 1⟩ : HashMap K V).totalNumItems + (rest.length : Int)
        ≤ ((((⟨t.slots.set (hf e.1 t.slots.length)
            ((e.1, e.2) :: t.slots.getD (hf e.1 t.slots.length) []),
          t.totalNumItems + 1⟩ : HashMap K V).slots.length * 3) / 2 : Nat) : Int) := by
      rw [show (⟨t.slots.set (hf e.1 t.slots.length)
            ((e.1, e.2) :: t.slots.getD (hf e.1 t.slots.length) []),
          t.totalNumItems + 1⟩ : HashMap K V).totalNumItems
          = t.totalNumItems + 1 from rfl, hl1]
      rw [List.length_cons] at hbound
      push_cast at hbound ⊢
      omega
    obtain ⟨ha, hb, hcI⟩ := ih _ hI1 hsplit.2 hnone' hbound'
    refine ⟨by rw [ha, hl1], ?_, hcI⟩
    rw [hb, show (⟨t.slots.set (hf e.1 t.slots.length)
          ((e.1, e.2) :: t.slots.getD (hf e.1 t.slots.length) []),
        t.totalNumItems + 1⟩ : HashMap K V).totalNumItems = t.totalNumItems + 1 from rfl,
      List.length_cons]
    push_cast
    ring

theorem set_growth (hf : K → Nat → Nat) (Hhf : ∀ k n, 0 < n → hf k n < n)
    {m : HashMap K V} (hInv : Inv hf m) (k : K) (v : V)
    (hload : m.totalNumItems ≤ (((m.slots.length * 3) / 2 : Nat) : Int)) :
    (set hf m k v).totalNumItems
      ≤ ((((set hf m k v).slots.length * 3) / 2 : Nat) : Int) ∧
    ((set hf m k v).slots.length = m.slots.length ∨
      (set hf m k v).slots.length = 2 * m.slots.length) := by
  rcases hcb : contains hf m k with _ | _
  · by_cases hg : (((m.slots.length * 3) / 2 : Nat) : Int) < m.totalNumItems + 1
    · -- the insert pushes the count one past the threshold: the rebuild fires
      have hcount_eq : m.totalNumItems = (((m.slots.length * 3) / 2 : Nat) : Int) := by
        omega
      obtain ⟨hGI, hGv, hGl⟩ := insert_path_spec hf Hhf hInv k v hcb
      have hfuel : fuelFor m = Nat.succ (m.totalNumItems.toNat + m.slots.length + 1) := rfl
      have hrw : set hf m k v
          = insertList (setF hf (m.totalNumItems.toNat + m.slots.length + 1))
              (emptyMap (((⟨m.slots.set (hf k m.slots.length)
                  ((k, v) :: m.slots.getD (hf k m.slots.length) []),
                m.totalNumItems + 1⟩ : HashMap K V).slots.length : Int) * 2))
              (⟨m.slots.set (hf k m.slots.length)
                  ((k, v) :: m.slots.getD (hf k m.slots.length) []),
                m.totalNumItems + 1⟩ : HashMap K V).slots.reverse.flatten := by
      
        rw [show set hf m k v = setF hf (fuelFor m) m k v from rfl, hfuel]
        exact setStep_eq_grow hf _ m k v hcb hg
      set G : HashMap K V := ⟨m.slots.set (hf k m.slots.length)
          ((k, v) :: m.slots.getD (hf k m.slots.length) []),
        m.totalNumItems + 1⟩ with hGdef
      have hGlen : G.slots.length = m.slots.length := hGl
      have hGcount : G.totalNumItems = m.totalNumItems + 1 := rfl
      have hpos : 0 < m.slots.length := hInv.1
      -- slot count of the fresh doubled table
      have hcast : ((G.slots.length : Int) * 2) = ((G.slots.length * 2 : Nat) : Int) := by
        push_cast
        ring
      have hlenempty : (emptyMap ((G.slots.length : Int) * 2) : HashMap K V).slots.length
          = G.slots.length * 2 := by
        rw [show (emptyMap ((G.slots.length : Int) * 2) : HashMap K V).slots
            = List.replicate ((G.slots.length : Int) * 2).toNat [] from rfl]
        rw [hcast, Int.toNat_natCast, List.length_replicate]
      have hemptyInv : Inv hf (emptyMap ((G.slots.length : Int) * 2) : HashMap K V) := by
        refine emptyMap_inv hf _ ?_
        rw [hcast, Int.toNat_natCast, hGlen]
        omega
      have hperm : (G.slots.reverse.flatten).Perm (entries G) :=
        (List.reverse_perm G.slots).flatten
      have hkeyUes : keyUnique G.slots.reverse.flatten :=
        keyUnique_of_perm hperm hGI.2.2.1
      have heslen : ((G.slots.reverse.flatten).length : Int) = G.totalNumItems := by
        rw [hperm.length_eq, hGI.2.2.2]
      have hallnone : ∀ e ∈ G.slots.reverse.flatten,
          val? hf (emptyMap ((G.slots.length : Int) * 2) : HashMap K V) e.1 = none :=
        fun e _ => val?_emptyMap hf _ e.1
      have hbound : (emptyMap ((G.slots.length : Int) * 2) : HashMap K V).totalNumItems
            + ((G.slots.reverse.flatten).length : Int)
          ≤ ((((emptyMap ((G.slots.length : Int) * 2)
              : HashMap K V).slots.length * 3) / 2 : Nat) : Int) := by
        rw [show (emptyMap ((G.slots.length : Int) * 2)
            : HashMap K V).totalNumItems = 0 from rfl, heslen, hGcount, hlenempty,
          hGlen, hcount_eq]
        have harith : m.slots.length * 3 / 2 + 1 ≤ m.slots.length * 2 * 3 / 2 := by
          omega
        push_cast
        omega
      obtain ⟨ha, hb, hcI⟩ := insertList_no_grow hf Hhf _ _ _ hemptyInv hkeyUes
        hallnone hbound
      have h1 : (set hf m k v).totalNumItems = ((G.slots.reverse.flatten).length : Int) := by
        rw [hrw, hb, show (emptyMap ((G.slots.length : Int) * 2)
          : HashMap K V).totalNumItems = 0 from rfl]
        ring
      have h2 : (set hf m k v).slots.length = G.slots.length * 2 := by
        rw [hrw, ha, hlenempty]
      constructor
      · rw [h1, h2, heslen, hGcount, hGlen, hcount_eq]
        omega
      · right
        rw [h2, hGlen]
        ring
    · rw [set_no_grow hf m k v hcb (not_lt.1 hg)]
      refine ⟨?_, Or.inl (List.length_set _ _ _)⟩
      rw [show (⟨m.slots.set (hf k m.slots.length)
            ((k, v) :: m.slots.getD (hf k m.slots.length) []),
          m.totalNumItems + 1⟩ : HashMap K V).totalNumItems
          = m.totalNumItems + 1 from rfl, List.length_set]
      exact not_lt.1 hg
  · rw [show set hf m k v = setF hf (fuelFor m) m k v from rfl,
      setF_update hf _ m k v hcb]
    refine ⟨?_, Or.inl (List.length_set _ _ _)⟩
    rw [show (⟨m.slots.set (hf k m.slots.length)
          (replaceFirstValue (m.slots.getD (hf k m.slots.length) []) k v),
        m.totalNumItems⟩ : HashMap K V).totalNumItems = m.totalNumItems from rfl,
      List.length_set]
    exact hload

theorem val?_remove_self (hf : K → Nat → Nat) (m : HashMap K V) (k : K) :
    val? hf (remove hf m k) k = none := by
  have hslots : (remove hf m k).slots
      = m.slots.set (hf k m.slots.length)
          ((m.slots.getD (hf k m.slots.length) []).filter
            (fun e => !decide (e.1 = k))) := rfl
  have hgen : generateHashFor hf (remove hf m k) k = hf k m.slots.length := by
    rw [generateHashFor, hslots, List.length_set]
  rw [val?, hgen]
  by_cases hlt : hf k m.slots.length < m.slots.length
  · rw [hslots, getD_set_self _ _ _ _ hlt]
    rw [List.find?_eq_none.2 (fun x hx => by
      have hx' := (List.mem_filter.1 hx).2
      simp at hx'
      simp [hx'])]
    rfl
  · rw [hslots, List.set_eq_of_length_le (not_lt.1 hlt),
      getD_of_length_le _ _ _ (not_lt.1 hlt)]
    rfl

theorem lookup_remove_self [Inhabited V] (hf : K → Nat → Nat) (m : HashMap K V)
    (k : K) : lookup hf (remove hf m k) k = default := by
  rw [lookup_eq_getD_val?, val?_remove_self]
  rfl

theorem remove_absent (hf : K → Nat → Nat) (m : HashMap K V) (k : K)
    (hc : contains hf m k = false) : remove hf m k = m := by
  have hall := List.any_eq_false.1 hc
  have hfil : (m.slots.getD (hf k m.slots.length) []).filter
      (fun e => !decide (e.1 = k)) = m.slots.getD (hf k m.slots.length) [] :=
    List.filter_eq_self.2 (fun a ha => by
      have := hall a ha
      simp at this
      simp [this])
  have hcnt : (m.slots.getD (hf k m.slots.length) []).countP
      (fun e => decide (e.1 = k)) = 0 :=
    List.countP_eq_zero.2 (fun a ha => hall a ha)
  show (⟨m.slots.set (hf k m.slots.length)
      ((m.slots.getD (hf k m.slots.length) []).filter (fun e => !decide (e.1 = k))),
    m.totalNumItems - ((m.slots.getD (hf k m.slots.length) []).countP
      (fun e => decide (e.1 = k)) : Int)⟩ : HashMap K V) = m
  rw [hfil, hcnt]
  by_cases hlt : hf k m.slots.length < m.slots.length
  · rw [set_getD_self _ _ _ hlt]
    cases m
    simp
  · rw [List.set_eq_of_length_le (not_lt.1 hlt)]
    cases m
    simp

theorem lookup_absent [Inhabited V] (hf : K → Nat → Nat) (m : HashMap K V) (k : K)
    (hc : contains hf m k = false) : lookup hf m k = default := by
  rw [lookup_eq_getD_val?, (contains_false_iff hf m k).1 hc]
  rfl

theorem remove_inv (hf : K → Nat → Nat) (Hhf : ∀ k n, 0 < n → hf k n < n)
    {m : HashMap K V} (hInv : Inv hf m) (k : K) : Inv hf (remove hf m k) := by
  obtain ⟨hpos, hbucket, hnodup, hcount⟩ := hInv
  have hlt : hf k m.slots.length < m.slots.length := Hhf k _ hpos
  obtain ⟨P, S, hP, hL, hset⟩ := slots_decomp m.slots (hf k m.slots.length) hlt
  have hslots : (remove hf m k).slots
      = P ++ ((m.slots.getD (hf k m.slots.length) []).filter
          (fun e => !decide (e.1 = k))) :: S := hset _
  have hlen : (remove hf m k).slots.length = m.slots.length := List.length_set _ _ _
  have hEm : entries m
      = P.flatten ++ (m.slots.getD (hf k m.slots.length) [] ++ S.flatten) := by
    rw [entries]
    conv_lhs => rw [hL]
    rw [List.flatten_append, List.flatten_cons]
  have hE' : entries (remove hf m k)
      = P.flatten ++ ((m.slots.getD (hf k m.slots.length) []).filter
          (fun e => !decide (e.1 = k)) ++ S.flatten) := by
    rw [entries, hslots, List.flatten_append, List.flatten_cons]
  have hsub : (entries (remove hf m k)).Sublist (entries m) := by
    rw [hE', hEm]
    exact (List.Sublist.refl _).append
      ((List.filter_sublist _).append (List.Sublist.refl _))
  refine ⟨by rw [hlen]; exact hpos, ?_, ?_, ?_⟩
  · intro i e hmem
    rw [hlen]
    by_cases hi : i = hf k m.slots.length
    · subst hi
      rw [show (remove hf m k).slots = m.slots.set (hf k m.slots.length) _ from rfl,
        getD_set_self _ _ _ _ hlt] at hmem
      exact hbucket _ e (List.mem_of_mem_filter hmem)
    · rw [show (remove hf m k).slots = m.slots.set (hf k m.slots.length) _ from rfl,
        getD_set_ne _ _ _ _ _ (fun hcontra => hi hcontra.symm)] at hmem
      exact hbucket i e hmem
  · exact (hsub.map Prod.fst).nodup hnodup
  · have h1 : ((m.slots.getD (hf k m.slots.length) []).filter
        (fun e => !decide (e.1 = k))).length
        + (m.slots.getD (hf k m.slots.length) []).countP (fun e => decide (e.1 = k))
        = (m.slots.getD (hf k m.slots.length) []).length :=
      length_filter_not_countP _ _
    have h2 : (entries m).length = P.flatten.length
        + ((m.slots.getD (hf k m.slots.length) []).length + S.flatten.length) := by
      rw [hEm]
      simp
    have h3 : (entries (remove hf m k)).length = P.flatten.length
        + (((m.slots.getD (hf k m.slots.length) []).filter
            (fun e => !decide (e.1 = k))).length + S.flatten.length) := by
      rw [hE']
      simp
    show m.totalNumItems - ((m.slots.getD (hf k m.slots.length) []).countP
        (fun e => decide (e.1 = k)) : Int) = _
    rw [hcount]
    omega

theorem removeValue_entries (m : HashMap K V) (v : V) :
    entries (removeValue m v) = (entries m).filter (fun e => !decide (e.2 = v)) := by
  rw [entries, show (removeValue m v).slots
      = m.slots.map (List.filter (fun e => !decide (e.2 = v))) from rfl,
    flatten_map_filter]
  rfl

theorem removeValue_size (m : HashMap K V) (v : V) :
    size (removeValue m v) = size m
      - ((entries m).countP (fun e => decide (e.2 = v)) : Int) := rfl

theorem val?_removeValue (hf : K → Nat → Nat) (m : HashMap K V) (v : V) (k : K)
    (w : V) (hv : val? hf m k = some w) (hw : ¬(w = v)) :
    val? hf (removeValue m v) k = some w := by
  have hgen : generateHashFor hf (removeValue m v) k = hf k m.slots.length := by
    rw [generateHashFor, show (removeValue m v).slots
        = m.slots.map (List.filter (fun e => !decide (e.2 = v))) from rfl,
      List.length_map]
  rw [val?, hgen, show (removeValue m v).slots
      = m.slots.map (List.filter (fun e => !decide (e.2 = v))) from rfl,
    map_filter_getD]
  rw [val?, generateHashFor] at hv
  rcases hfind : (m.slots.getD (hf k m.slots.length) []).find?
      (fun e => decide (e.1 = k)) with _ | e
  · rw [hfind] at hv
    cases hv
  · rw [hfind] at hv
    have he2 : e.2 = w := by
      have := Option.some.inj hv
      exact this
    rw [find?_filter_keep _ e hfind (by simp [he2, hw])]
    rw [show (Option.map Prod.snd (some e)) = some e.2 from rfl, he2]

theorem removeValue_no_value (m : HashMap K V) (v : V) :
    ∀ e ∈ entries (removeValue m v), ¬(e.2 = v) := by
  intro e he
  rw [removeValue_entries] at he
  have := (List.mem_filter.1 he).2
  simpa using this

theorem removeValue_inv (hf : K → Nat → Nat) {m : HashMap K V} (hInv : Inv hf m)
    (v : V) : Inv hf (removeValue m v) := by
  obtain ⟨hpos, hbucket, hnodup, hcount⟩ := hInv
  have hlen : (removeValue m v).slots.length = m.slots.length := List.length_map _ _
  refine ⟨by rw [hlen]; exact hpos, ?_, ?_, ?_⟩
  · intro i e hmem
    rw [hlen]
    rw [show (removeValue m v).slots
        = m.slots.map (List.filter (fun e => !decide (e.2 = v))) from rfl,
      map_filter_getD] at hmem
    exact hbucket i e (List.mem_of_mem_filter hmem)
  · rw [keyUnique, removeValue_entries]
    exact ((List.filter_sublist _).map Prod.fst).nodup hnodup
  · have h1 : ((entries m).filter (fun e => !decide (e.2 = v))).length
        + (entries m).countP (fun e => decide (e.2 = v)) = (entries m).length :=
      length_filter_not_countP _ _
    show m.totalNumItems - ((entries m).countP (fun e => decide (e.2 = v)) : Int)
        = ((entries (removeValue m v)).length : Int)
    rw [hcount, removeValue_entries]
    omega

theorem clear_inv (hf : K → Nat → Nat) {m : HashMap K V} (hInv : Inv hf m) :
    Inv hf (clear m) := by
  refine ⟨?_, ?_, ?_, ?_⟩
  · rw [show (clear m).slots = m.slots.map (fun _ => []) from rfl, List.length_map]
    exact hInv.1
  · intro i e hmem
    rw [show (clear m).slots = m.slots.map (fun _ => []) from rfl,
      map_nil_getD] at hmem
    simp at hmem
  · rw [keyUnique, entries, show (clear m).slots = m.slots.map (fun _ => []) from rfl,
      flatten_map_nil]
    simp
  · rw [entries, show (clear m).slots = m.slots.map (fun _ => []) from rfl,
      flatten_map_nil]
    rfl

theorem runSets_growth (hf : K → Nat → Nat) (Hhf : ∀ k n, 0 < n → hf k n < n) :
    ∀ (ops : List (K × V)) (m : HashMap K V), Inv hf m →
      m.totalNumItems ≤ (((m.slots.length * 3) / 2 : Nat) : Int) →
      (runSets hf m ops).totalNumItems
          ≤ ((((runSets hf m ops).slots.length * 3) / 2 : Nat) : Int) ∧
      ∃ j, (runSets hf m ops).slots.length = 2 ^ j * m.slots.length := by
  intro ops
  induction ops with
  | nil =>
    intro m hInv hload
    exact ⟨hload, ⟨0, by rw [show runSets hf m [] = m from rfl]; ring⟩⟩
  | cons e rest ih =>
    intro m hInv hload
    have hInv1 := (set_spec hf Hhf m e.1 e.2 hInv).1
    obtain ⟨hb, hdouble⟩ := set_growth hf Hhf hInv e.1 e.2 hload
    obtain ⟨hb2, j, hj⟩ := ih (set hf m e.1 e.2) hInv1 hb
    have hrw : runSets hf m (e :: rest) = runSets hf (set hf m e.1 e.2) rest := rfl
    refine ⟨by rw [hrw]; exact hb2, ?_⟩
    rcases hdouble with h | h
    · exact ⟨j, by rw [hrw, hj, h]⟩
    · exact ⟨j + 1, by rw [hrw, hj, h]; ring⟩

theorem lastAssigned_isSome_of_mem (ops : List (K × V)) (k : K)
    (h : k ∈ ops.map Prod.fst) : ∃ v', lastAssigned ops k = some v' := by
  induction ops with
  | nil => simp at h
  | cons e rest ih =>
    rw [lastAssigned_cons]
    rw [List.map_cons, List.mem_cons] at h
    rcases h with h | h
    · rcases hrest : lastAssigned rest k with _ | v'
      · exact ⟨e.2, by rw [if_pos h.symm]; rfl⟩
      · exact ⟨v', rfl⟩
    · obtain ⟨v', h'⟩ := ih h
      exact ⟨v', by rw [h']; rfl⟩

theorem reachable_inv (hf : K → Nat → Nat) (Hhf : ∀ k n, 0 < n → hf k n < n) :
    ∀ {m : HashMap K V}, Reachable hf m → Inv hf m := by
  intro m h
  induction h with
  | emptyMap n hn => exact emptyMap_inv hf n (by omega)
  | set k v _ ih => exact (set_spec hf Hhf _ k v ih).1
  | remove k _ ih => exact remove_inv hf Hhf ih k
  | removeValue v _ ih => exact removeValue_inv hf ih v
  | clear _ ih => exact clear_inv hf ih
  | remapTable n hn _ ih => exact (remapTable_spec hf Hhf n ih (by omega)).1
  | swapLeft _ _ _ ihb => exact ihb
  | swapRight _ _ iha _ => exact iha

end HashMap

theorem neg_tmod (a b : Int) : (-a).tmod b = -(a.tmod b) := by
  rw [Int.tmod_def, Int.tmod_def, Int.neg_tdiv]
  ring

theorem toInt32_of_range (x : Int) (h0 : 0 ≤ x) (h1 : x < 2 ^ 31) :
    toInt32 x = x := by
  rw [toInt32, Int.emod_eq_of_lt (by omega) (by omega)]
  omega

theorem absInt32_eq_natAbs (k : Int) (hlow : -(2 ^ 31) < k) (hhigh : k < 2 ^ 31) :
    DefaultHashFunctions.absInt32 k = (k.natAbs : Int) := by
  rw [DefaultHashFunctions.absInt32]
  by_cases hk : k < 0
  · rw [if_pos hk, toInt32_of_range (-k) (by omega) (by omega)]
    omega
  · rw [if_neg hk]
    omega

theorem absInt32_intMin : DefaultHashFunctions.absInt32 (-(2 ^ 31)) = -(2 ^ 31) := by
  rw [DefaultHashFunctions.absInt32, if_pos (by omega), toInt32]
  decide

theorem generateHash_in_range (k u : Int) (hlow : -(2 ^ 31) ≤ k) (hhigh : k < 2 ^ 31)
    (hmin : ¬(k = -(2 ^ 31))) (hu : 0 < u) :
    isPositiveAndBelow (DefaultHashFunctions.generateHash k u) u = true := by
  rw [DefaultHashFunctions.generateHash, absInt32_eq_natAbs k (by omega) hhigh]
  have h0 : (0 : Int) ≤ (k.natAbs : Int) := by omega
  rw [Int.tmod_eq_emod h0 (by omega), isPositiveAndBelow]
  have hnn := Int.emod_nonneg (k.natAbs : Int) (by omega : (u : Int) ≠ 0)
  have hlt := Int.emod_lt_of_pos (k.natAbs : Int) hu
  rw [decide_eq_true hnn, decide_eq_true hlt]
  rfl

theorem generateHash_intMin_out_of_range (u : Int) (hu : 0 < u)
    (hmod : ¬((2 ^ 31 : Int).tmod u = 0)) :
    DefaultHashFunctions.generateHash (-(2 ^ 31)) u < 0 := by
  rw [DefaultHashFunctions.generateHash, absInt32_intMin, neg_tmod]
  have hnn := Int.tmod_nonneg u (by omega : (0 : Int) ≤ 2 ^ 31)
  omega

theorem generateHash_intMin_in_range (u : Int) (hu : 0 < u)
    (hdvd : u ∣ (2 ^ 31 : Int)) :
    DefaultHashFunctions.generateHash (-(2 ^ 31)) u = 0 ∧
    isPositiveAndBelow (DefaultHashFunctions.generateHash (-(2 ^ 31)) u) u = true := by
  have hmod : (2 ^ 31 : Int).tmod u = 0 := Int.tmod_eq_zero_of_dvd hdvd
  have h0 : DefaultHashFunctions.generateHash (-(2 ^ 31)) u = 0 := by
    rw [DefaultHashFunctions.generateHash, absInt32_intMin, neg_tmod, hmod, neg_zero]
  refine ⟨h0, ?_⟩
  rw [h0, isPositiveAndBelow, decide_eq_true (le_refl (0 : Int)), decide_eq_true hu]
  rfl

theorem generateHash_eq_intHash (k : Int) (hlow : -(2 ^ 31) < k) (hhigh : k < 2 ^ 31)
    (n : Nat) :
    DefaultHashFunctions.generateHash k (n : Int) = (intHash k n : Int) := by
  rw [DefaultHashFunctions.generateHash, absInt32_eq_natAbs k hlow hhigh,
    Int.tmod_eq_emod (by omega) (by omega), intHash, Int.natCast_mod]

theorem intHash_lt (k : Int) (n : Nat) (hn : 0 < n) : intHash k n < n :=
  Nat.mod_lt _ hn

theorem intHash_contract : ∀ (k : Int) (n : Nat), 0 < n → intHash k n < n :=
  fun k n hn => intHash_lt k n hn

open HashMap in
/-- C1: for every sequence of `set (k, v)` calls on a map (keys possibly repeated)
starting from an empty map, `size ()` equals the number of distinct keys in the
sequence, and every key `ki` used looks up (`operator[]`) to the value of the last
`set` call whose key was `ki`. -/
theorem C1_set_sequences_size_and_last_write {K V : Type} [DecidableEq K]
    [DecidableEq V] [Inhabited V] (hf : K → Nat → Nat)
    (Hhf : ∀ k n, 0 < n → hf k n < n) (n : Int) (hn : 0 < n)
    (ops : List (K × V)) :
    size (runSets hf (emptyMap n) ops) = ((ops.map Prod.fst).toFinset.card : Int) ∧
    ∀ k ∈ ops.map Prod.fst, ∃ v, lastAssigned ops k = some v ∧
      lookup hf (runSets hf (emptyMap n) ops) k = v := by
  have hInv : Inv hf (emptyMap n : HashMap K V) := emptyMap_inv hf n (by omega)
  obtain ⟨hI, hv, hc, _⟩ := runSets_spec hf Hhf ops _ hInv
  constructor
  · rw [size, hc, show (emptyMap n : HashMap K V).totalNumItems = 0 from rfl,
      newKeysF_congr _ (fun _ => none) (fun k => val?_emptyMap hf n k) ops,
      newKeysF_card]
    rw [Finset.filter_true_of_mem (fun _ _ => rfl)]
    ring
  · intro k hk
    obtain ⟨v, hv'⟩ := lastAssigned_isSome_of_mem ops k hk
    refine ⟨v, hv', ?_⟩
    rw [lookup_eq_getD_val?, hv k, val?_emptyMap, orO_none_right, hv']
    rfl

open HashMap in
/-- Witness for C1 at a concrete input: keys 1, 2, 1 into a 5-slot map leave
size 2, and key 1 looks up to 30, the value of the last `set (1, _)`. -/
theorem C1_witness :
    size (runSets intHash (emptyMap 5) [((1 : Int), (10 : Int)), (2, 20), (1, 30)]) = 2 ∧
    lookup intHash (runSets intHash (emptyMap 5)
      [((1 : Int), (10 : Int)), (2, 20), (1, 30)]) 1 = 30 := by
  have h := C1_set_sequences_size_and_last_write intHash intHash_contract 5
    (by decide) [((1 : Int), (10 : Int)), (2, 20), (1, 30)]
  constructor
  · rw [h.1]
    decide
  · obtain ⟨v, hv1, hv2⟩ := h.2 1 (by decide)
    have hv30 : v = 30 := by
      rw [show lastAssigned [((1 : Int), (10 : Int)), (2, 20), (1, 30)] 1 = some 30
        from by decide] at hv1
      exact (Option.some.inj hv1).symm
    rw [hv30] at hv2
    exact hv2

open HashMap in
/-- C2: inserting keys 1..1000 (default int hash) into a map constructed with 101
slots leaves `size () = 1000`, the slot count having doubled at least 3 times from
101 (101, 202, 404, 808, ...), and key 500 looking up to the value last assigned to
it; and whenever a `set` pushes `itemCount` past `numSlots * 3 / 2`, the table
automatically remaps to twice the slot count. -/
theorem C2_growth_scenario :
    size (runSets intHash (emptyMap 101)
        ((List.range 1000).map (fun (i : Nat) => (((i : Int) + 1), ((i : Int) + 1))))) = 1000 ∧
    (∃ j, 3 ≤ j ∧ getNumSlots (runSets intHash (emptyMap 101)
        ((List.range 1000).map (fun (i : Nat) => (((i : Int) + 1), ((i : Int) + 1)))))
      = 101 * 2 ^ j) ∧
    lastAssigned ((List.range 1000).map
        (fun (i : Nat) => (((i : Int) + 1), ((i : Int) + 1)))) 500 = some 500 ∧
    lookup intHash (runSets intHash (emptyMap 101)
        ((List.range 1000).map (fun (i : Nat) => (((i : Int) + 1), ((i : Int) + 1))))) 500 = 500 ∧
    (∀ (m : HashMap Int Int) (k v : Int), Inv intHash m →
      m.totalNumItems ≤ (((m.slots.length * 3) / 2 : Nat) : Int) →
      contains intHash m k = false →
      (((m.slots.length * 3) / 2 : Nat) : Int) < m.totalNumItems + 1 →
      getNumSlots (set intHash m k v) = 2 * getNumSlots m) := by
  have hInv : Inv intHash (emptyMap 101 : HashMap Int Int) :=
    emptyMap_inv intHash 101 (by omega)
  obtain ⟨hI, hv, hc, _⟩ := runSets_spec intHash intHash_contract
    ((List.range 1000).map (fun (i : Nat) => (((i : Int) + 1), ((i : Int) + 1)))) _ hInv
  have hkeys : ((List.range 1000).map
      (fun (i : Nat) => (((i : Int) + 1), ((i : Int) + 1)))).map Prod.fst
      = (List.range 1000).map (fun (i : Nat) => ((i : Int) + 1)) := by
    have hcomp : Prod.fst ∘ (fun (i : Nat) => (((i : Int) + 1), ((i : Int) + 1)))
        = fun (i : Nat) => ((i : Int) + 1) := rfl
    rw [List.map_map, hcomp]
  have hnodup : (((List.range 1000).map
      (fun (i : Nat) => (((i : Int) + 1), ((i : Int) + 1)))).map Prod.fst).Nodup := by
    rw [hkeys]
    exact (List.nodup_range 1000).map (fun a b hab => by omega)
  have hsize : size (runSets intHash (emptyMap 101)
      ((List.range 1000).map (fun (i : Nat) => (((i : Int) + 1), ((i : Int) + 1))))) = 1000 := by
    rw [size, hc, show (emptyMap 101 : HashMap Int Int).totalNumItems = 0 from rfl,
      newKeysF_congr _ (fun _ => none) (fun k => val?_emptyMap intHash 101 k) _,
      newKeysF_card]
    rw [Finset.filter_true_of_mem (fun _ _ => rfl),
      List.toFinset_card_of_nodup hnodup, hkeys, List.length_map, List.length_range]
    ring
  have hmem : (((500 : Int), (500 : Int))) ∈ (List.range 1000).map
      (fun (i : Nat) => (((i : Int) + 1), ((i : Int) + 1))) :=
    List.mem_map.2 ⟨499, List.mem_range.2 (by omega), by norm_num⟩
  have hlast : lastAssigned ((List.range 1000).map
      (fun (i : Nat) => (((i : Int) + 1), ((i : Int) + 1)))) 500 = some 500 :=
    lastAssigned_of_mem hnodup hmem
  refine ⟨hsize, ?_, hlast, ?_, ?_⟩
  · have hload : (emptyMap 101 : HashMap Int Int).totalNumItems
        ≤ ((((emptyMap 101 : HashMap Int Int).slots.length * 3) / 2 : Nat) : Int) := by
      rw [show (emptyMap 101 : HashMap Int Int).totalNumItems = 0 from rfl]
      exact Int.natCast_nonneg _
    obtain ⟨hbound, j, hj⟩ := runSets_growth intHash intHash_contract
      ((List.range 1000).map (fun (i : Nat) => (((i : Int) + 1), ((i : Int) + 1))))
      (emptyMap 101) hInv hload
    rw [show (emptyMap 101 : HashMap Int Int).slots.length = 101 from by
      simp [emptyMap]] at hj
    rw [size] at hsize
    rw [hsize, hj] at hbound
    have hb2 : (1000 : Nat) ≤ 2 ^ j * 101 * 3 / 2 := by exact_mod_cast hbound
    have h667 : 667 ≤ 2 ^ j * 101 := by omega
    rcases j with _ | _ | _ | j'
    · exfalso
      rw [pow_zero, one_mul] at h667
      omega
    · exfalso
      rw [pow_one] at h667
      omega
    · exfalso
      norm_num at h667
    · exact ⟨j' + 3, by omega, by rw [getNumSlots, hj]; ring⟩
  · rw [lookup_eq_getD_val?, hv 500, hlast]
    rfl
  · intro m k v hmInv hload hcont htrig
    obtain ⟨hb, hor⟩ := set_growth intHash intHash_contract hmInv k v hload
    rcases hor with h | h
    · exfalso
      have hvnone : val? intHash m k = none := (contains_false_iff intHash m k).1 hcont
      have hcnt := (set_spec intHash intHash_contract m k v hmInv).2.2.1
      rw [hvnone, if_pos rfl] at hcnt
      rw [h, hcnt] at hb
      omega
    · rw [getNumSlots, getNumSlots, h]

open HashMap in
/-- Witness for C2's growth rule at a concrete input: a 1-slot map holding one
entry doubles to 2 slots when a fresh key pushes the count past the threshold. -/
theorem C2_witness :
    getNumSlots (set intHash (set intHash (emptyMap 1) 0 (7 : Int)) 1 8)
      = 2 * getNumSlots (set intHash (emptyMap 1) 0 (7 : Int)) := by
  have hInv : Inv intHash (set intHash (emptyMap 1) 0 (7 : Int)) :=
    (set_spec intHash intHash_contract (emptyMap 1) 0 (7 : Int)
      (emptyMap_inv intHash 1 (by omega))).1
  exact C2_growth_scenario.2.2.2.2 (set intHash (emptyMap 1) 0 (7 : Int)) 1 8 hInv
    (by decide) (by decide) (by decide)

open HashMap in
/-- C3: for every invariant-satisfying map `m` and positive slot counts `x`, `y`,
`remapTable x` followed by `remapTable y` preserves every key's lookup result,
every key's membership, and `size ()`. -/
theorem C3_remap_round_trip {K V : Type} [DecidableEq K] [DecidableEq V] [Inhabited V]
    (hf : K → Nat → Nat) (Hhf : ∀ k n, 0 < n → hf k n < n) {m : HashMap K V}
    (hInv : Inv hf m) (x y : Int) (hx : 0 < x) (hy : 0 < y) :
    (∀ k, lookup hf (remapTable hf (remapTable hf m x) y) k = lookup hf m k) ∧
    (∀ k, contains hf (remapTable hf (remapTable hf m x) y) k = contains hf m k) ∧
    size (remapTable hf (remapTable hf m x) y) = size m := by
  obtain ⟨hI1, hv1, hc1, _⟩ := remapTable_spec hf Hhf x hInv (by omega)
  obtain ⟨hI2, hv2, hc2, _⟩ := remapTable_spec hf Hhf y hI1 (by omega)
  have hval : ∀ k, val? hf (remapTable hf (remapTable hf m x) y) k = val? hf m k :=
    fun k => by rw [hv2 k, hv1 k]
  refine ⟨?_, ?_, ?_⟩
  · intro k
    rw [lookup_eq_getD_val?, lookup_eq_getD_val?, hval k]
  · intro k
    rcases hvm : val? hf m k with _ | w
    · rw [(contains_false_iff hf _ k).2 (by rw [hval k]; exact hvm),
        (contains_false_iff hf m k).2 hvm]
    · rw [(contains_true_iff hf _ k).2 ⟨w, by rw [hval k]; exact hvm⟩,
        (contains_true_iff hf m k).2 ⟨w, hvm⟩]
  · rw [size, size, hc2, hc1]

open HashMap in
/-- Witness for C3 at a concrete input: a one-entry map remapped to 3 then 7 slots
keeps key 1's lookup result and its size. -/
theorem C3_witness :
    lookup intHash (remapTable intHash (remapTable intHash
      (set intHash (emptyMap 5) 1 10) 3) 7) 1
        = lookup intHash (set intHash (emptyMap 5) 1 10) 1 ∧
    size (remapTable intHash (remapTable intHash
      (set intHash (emptyMap 5) 1 10) 3) 7)
        = size (set intHash (emptyMap 5) 1 10) := by
  have hInvM : Inv intHash (set intHash (emptyMap 5) 1 10) :=
    (set_spec intHash intHash_contract (emptyMap 5) 1 10
      (emptyMap_inv intHash 5 (by decide))).1
  have h := C3_remap_round_trip intHash intHash_contract hInvM 3 7
    (by decide) (by decide)
  exact ⟨h.1 1, h.2.2⟩

open HashMap in
/-- C4: every map state reachable from an empty map through the public operations
(`set`, `remove`, `removeValue`, `clear`, `remapTable`, `swapWith`) keeps every
entry in the bucket its key hashes to, has no two entries sharing a key, and has
`totalNumItems` equal to the sum of all chain lengths (for a hash function within
the `[0, numSlots)` contract). -/
theorem C4_reachable_invariants {K V : Type} [DecidableEq K] [DecidableEq V]
    (hf : K → Nat → Nat) (Hhf : ∀ k n, 0 < n → hf k n < n) {m : HashMap K V}
    (h : Reachable hf m) :
    (∀ i, ∀ e ∈ m.slots.getD i [], hf e.1 (getNumSlots m) = i) ∧
    keyUnique (entries m) ∧
    m.totalNumItems = ((m.slots.map List.length).sum : Int) := by
  obtain ⟨hpos, hbucket, hnodup, hcount⟩ := reachable_inv hf Hhf h
  refine ⟨hbucket, hnodup, ?_⟩
  rw [hcount, entries, List.length_flatten]

open HashMap in
/-- Witness for C4 at a concrete reachable state: set then remove then remapTable,
checking the no-duplicate-keys and count-equals-chain-lengths invariants. -/
theorem C4_witness :
    keyUnique (entries (remapTable intHash
      (remove intHash (set intHash (emptyMap 5) 1 10) 7) 3)) ∧
    (remapTable intHash (remove intHash
      (set intHash (emptyMap 5) 1 10) 7) 3).totalNumItems
      = (((remapTable intHash (remove intHash
          (set intHash (emptyMap 5) 1 10) 7) 3).slots.map List.length).sum : Int) := by
  have hreach : Reachable intHash (remapTable intHash
      (remove intHash (set intHash (emptyMap 5) 1 10) 7) 3) :=
    Reachable.remapTable 3 (by decide)
      (Reachable.remove 7 (Reachable.set 1 10 (Reachable.emptyMap 5 (by decide))))
  have h := C4_reachable_invariants intHash intHash_contract hreach
  exact ⟨h.2.1, h.2.2⟩


open HashMap in
/-- C5: removing a key always makes its subsequent lookup return the
default-constructed value; removing an absent key leaves the map unchanged; and a
lookup of an absent key never fails — it returns the default value. -/
theorem C5_remove_then_lookup_absent {K V : Type} [DecidableEq K] [DecidableEq V]
    [Inhabited V] (hf : K → Nat → Nat) :
    (∀ (m : HashMap K V) (k : K), lookup hf (remove hf m k) k = default) ∧
    (∀ (m : HashMap K V) (k : K), contains hf m k = false → remove hf m k = m) ∧
    (∀ (m : HashMap K V) (k : K), contains hf m k = false → lookup hf m k = default) :=
  ⟨fun m k => lookup_remove_self hf m k,
   fun m k hc => remove_absent hf m k hc,
   fun m k hc => lookup_absent hf m k hc⟩

open HashMap in
/-- Witness for C5 at a concrete input: removing key 1 makes it look up to 0 (the
default `int`), removing the absent key 2 leaves the map literally unchanged, and
looking up the absent key 2 returns 0. -/
theorem C5_witness :
    lookup intHash (remove intHash (set intHash (emptyMap 5) 1 (10 : Int)) 1) 1
      = (default : Int) ∧
    remove intHash (set intHash (emptyMap 5) 1 (10 : Int)) 2
      = set intHash (emptyMap 5) 1 (10 : Int) ∧
    lookup intHash (set intHash (emptyMap 5) 1 (10 : Int)) 2 = (default : Int) := by
  have h := C5_remove_then_lookup_absent (K := Int) (V := Int) intHash
  exact ⟨h.1 (set intHash (emptyMap 5) 1 (10 : Int)) 1,
    h.2.1 (set intHash (emptyMap 5) 1 (10 : Int)) 2 (by decide),
    h.2.2 (set intHash (emptyMap 5) 1 (10 : Int)) 2 (by decide)⟩

open HashMap in
/-- C6: `removeValue (v)` keeps exactly the entries whose value differs from `v`
(in order), no entry with value `v` survives, `size ()` drops by exactly the number
of entries that held `v`, and every key that looked up to a value other than `v`
still looks up to it. -/
theorem C6_removeValue_removes_exactly {K V : Type} [DecidableEq K] [DecidableEq V]
    [Inhabited V] (hf : K → Nat → Nat) :
    (∀ (m : HashMap K V) (v : V),
      entries (removeValue m v) = (entries m).filter (fun e => !decide (e.2 = v))) ∧
    (∀ (m : HashMap K V) (v : V) (e : K × V),
      e ∈ entries (removeValue m v) → ¬(e.2 = v)) ∧
    (∀ (m : HashMap K V) (v : V),
      size (removeValue m v)
        = size m - ((entries m).countP (fun e => decide (e.2 = v)) : Int)) ∧
    (∀ (m : HashMap K V) (v : V) (k : K) (w : V), val? hf m k = some w → ¬(w = v) →
      val? hf (removeValue m v) k = some w ∧
      lookup hf (removeValue m v) k = lookup hf m k) :=
  ⟨fun m v => removeValue_entries m v,
   fun m v e he => removeValue_no_value m v e he,
   fun m v => removeValue_size m v,
   fun m v k w hv hw => ⟨val?_removeValue hf m v k w hv hw, by
     rw [lookup_eq_getD_val?, lookup_eq_getD_val?,
       val?_removeValue hf m v k w hv hw, hv]⟩⟩

open HashMap in
/-- Witness for C6 at a concrete input: removing value 10 from {1 ↦ 10, 2 ↦ 20}
drops the size by the count of 10-valued entries and keeps key 2's lookup. -/
theorem C6_witness :
    size (removeValue (set intHash
        (set intHash (emptyMap 5) 1 (10 : Int)) 2 20) 10)
      = size (set intHash (set intHash (emptyMap 5) 1 (10 : Int)) 2 20)
        - ((entries (set intHash
            (set intHash (emptyMap 5) 1 (10 : Int)) 2 20)).countP
            (fun e => decide (e.2 = 10)) : Int) ∧
    lookup intHash (removeValue (set intHash
        (set intHash (emptyMap 5) 1 (10 : Int)) 2 20) 10) 2
      = lookup intHash (set intHash
        (set intHash (emptyMap 5) 1 (10 : Int)) 2 20) 2 := by
  have h := C6_removeValue_removes_exactly (K := Int) (V := Int) intHash
  exact ⟨h.2.2.1 (set intHash (set intHash (emptyMap 5) 1 (10 : Int)) 2 20) 10,
    (h.2.2.2 (set intHash (set intHash (emptyMap 5) 1 (10 : Int)) 2 20) 10 2 20
      (by decide) (by decide)).2⟩

open HashMap in
/-- C7: after `A.swapWith (B)` the first component reports what `B` reported before
the swap and the second what `A` reported, for `size ()`, `getNumSlots ()` and every
key's lookup and membership result. -/
theorem C7_swapWith_exchanges {K V : Type} [DecidableEq K] [DecidableEq V]
    [Inhabited V] (hf : K → Nat → Nat) (a b : HashMap K V) :
    size (swapWith a b).1 = size b ∧ size (swapWith a b).2 = size a ∧
    getNumSlots (swapWith a b).1 = getNumSlots b ∧
    getNumSlots (swapWith a b).2 = getNumSlots a ∧
    (∀ k, lookup hf (swapWith a b).1 k = lookup hf b k) ∧
    (∀ k, lookup hf (swapWith a b).2 k = lookup hf a k) ∧
    (∀ k, contains hf (swapWith a b).1 k = contains hf b k) ∧
    (∀ k, contains hf (swapWith a b).2 k = contains hf a k) :=
  ⟨rfl, rfl, rfl, rfl, fun _ => rfl, fun _ => rfl, fun _ => rfl, fun _ => rfl⟩

open HashMap in
/-- C8 counterexample: inserting key 10 into a 5-slot map whose bucket 0 already
chains key 5 puts the new entry at the head of the chain, not at its end — the
chain reads [(10, 100), (5, 50)] and its last entry is the old one. -/
theorem C8_counterexample :
    (set intHash (set intHash (emptyMap 5) 5 50) 10 100).slots.getD 0 []
      = [((10 : Int), (100 : Int)), (5, 50)] ∧
    ¬((set intHash (set intHash (emptyMap 5) 5 50) 10 100).slots.getD 0 []
      = [((5 : Int), (50 : Int)), (10, 100)]) ∧
    ((set intHash (set intHash (emptyMap 5) 5 50) 10 100).slots.getD 0 []).getLast?
      = some ((5 : Int), (50 : Int)) := by
  decide

open HashMap in
/-- C8 (amended): for a key absent from its bucket chain, `set (k, v)` PREPENDS the
new entry — the new `HashEntry` becomes the slot head and points at the old head, so
the existing entries keep their relative order after it — and increments
`totalNumItems` by one (stated below the growth threshold, where no rebuild
follows the insertion). -/
theorem C8_set_prepends_not_appends {K V : Type} [DecidableEq K] [DecidableEq V]
    (hf : K → Nat → Nat) (m : HashMap K V) (k : K) (v : V)
    (hc : contains hf m k = false)
    (hng : m.totalNumItems + 1 ≤ (((m.slots.length * 3) / 2 : Nat) : Int)) :
    set hf m k v = ⟨m.slots.set (hf k m.slots.length)
        ((k, v) :: m.slots.getD (hf k m.slots.length) []), m.totalNumItems + 1⟩ ∧
    size (set hf m k v) = size m + 1 := by
  have h := set_no_grow hf m k v hc hng
  exact ⟨h, by rw [size, size, h]⟩

open HashMap in
/-- Witness for C8 at a concrete input: inserting key 10 over the one-entry bucket
of key 5 yields exactly the prepended chain and count 2. -/
theorem C8_witness :
    set intHash (set intHash (emptyMap 5) 5 50) 10 100
      = ⟨[[((10 : Int), (100 : Int)), (5, 50)], [], [], [], []], 2⟩ := by
  exact ((C8_set_prepends_not_appends intHash (set intHash (emptyMap 5) 5 50)
    10 100 (by decide) (by decide)).1).trans (by decide)

/-- C10 counterexample: at `key = INT_MIN` and `upperLimit = 1` the default int
hash returns 0, which satisfies the `isPositiveAndBelow` contract — so the result
is not out of range for every positive upper limit. -/
theorem C10_counterexample :
    isPositiveAndBelow (DefaultHashFunctions.generateHash (-(2 ^ 31)) 1) 1 = true ∧
    DefaultHashFunctions.generateHash (-(2 ^ 31)) 1 = 0 := by
  decide

/-- C10 (amended): for every 32-bit int key other than `INT_MIN` and every
`upperLimit > 0`, `DefaultHashFunctions::generateHash` returns a value satisfying
the `isPositiveAndBelow` range contract checked by `generateHashFor`; at
`key = INT_MIN` the wrapped `abs` is negative (`INT_MIN` itself), and the result
violates the contract exactly for those `upperLimit` that do not divide `2^31`
(every non-divisor gives a negative result, e.g. 101; every divisor of `2^31`
gives 0, which is in range, e.g. 1 or 2). -/
theorem C10_generateHash_range :
    (∀ k u : Int, -(2 ^ 31) ≤ k → k < 2 ^ 31 → ¬(k = -(2 ^ 31)) → 0 < u →
      isPositiveAndBelow (DefaultHashFunctions.generateHash k u) u = true) ∧
    DefaultHashFunctions.absInt32 (-(2 ^ 31)) < 0 ∧
    (∀ u : Int, 0 < u → ¬(u ∣ (2 ^ 31 : Int)) →
      DefaultHashFunctions.generateHash (-(2 ^ 31)) u < 0) ∧
    (∀ u : Int, 0 < u → u ∣ (2 ^ 31 : Int) →
      DefaultHashFunctions.generateHash (-(2 ^ 31)) u = 0 ∧
      isPositiveAndBelow (DefaultHashFunctions.generateHash (-(2 ^ 31)) u) u = true) :=
  ⟨fun k u h1 h2 h3 h4 => generateHash_in_range k u h1 h2 h3 h4,
   by rw [absInt32_intMin]; decide,
   fun u h1 h2 => generateHash_intMin_out_of_range u h1
     (fun hz => h2 (Int.dvd_of_tmod_eq_zero hz)),
   fun u h1 h2 => generateHash_intMin_in_range u h1 h2⟩

/-- Witness for C10 at concrete inputs: key 5 with limit 3 is in range, `INT_MIN`
with the non-divisor limit 101 hashes negative, out of range, and `INT_MIN` with
the divisor limit 2 hashes to 0, in range. -/
theorem C10_witness :
    isPositiveAndBelow (DefaultHashFunctions.generateHash 5 3) 3 = true ∧
    DefaultHashFunctions.generateHash (-(2 ^ 31)) 101 < 0 ∧
    DefaultHashFunctions.generateHash (-(2 ^ 31)) 2 = 0 := by
  have h := C10_generateHash_range
  exact ⟨h.1 5 3 (by decide) (by decide) (by decide) (by decide),
    h.2.2.1 101 (by decide)
      (by rw [Int.dvd_iff_tmod_eq_zero]; decide),
    (h.2.2.2 2 (by decide) ⟨2 ^ 30, by norm_num⟩).1⟩


end Juce
